import Mathlib

/-!
# goccmcp: the Coding Challenges solution finder

A shallow embedding of `main.go` and a verification of its specification.

## The model

* A Go string is a sequence of bytes (`Str`, a list of naturals below 256).  The
  regular-expression engine, `strings.TrimSpace` and the pattern parser read a string
  rune by rune through `utf8.DecodeRuneInString`; that decoder is embedded, with an
  invalid byte decoding to `U+FFFD` of width one as in Go.
* The pattern of `extractMarkdownLinkHrefByText` is a concatenation of tests on one
  rune, each taken once or under `*`, `*?` or `+`, with one capture group.
  `matchNodes` is the backtracking matcher for such concatenations; it finds the
  match the package `regexp` specifies, the one a backtracking search finds first.
  `findAllAux` is the loop of `FindAllStringSubmatch` over the leftmost matches.
* The fixed parts of the format string are translated to the nodes of `patternNodes`
  by hand.  The argument of `%s`, the quoted challenge, goes through `QuoteMeta` and
  through `parseLiteralRun`, which reads it the way the parser of `regexp/syntax` reads
  literals and tells when something else than a literal stands there.
* Case folding under `(?i)` is `unicode.SimpleFold`.  Its orbits that hold an ASCII
  letter are written out; the orbits of the other runes come from the Unicode tables
  and are a parameter `tbl` of everything that matches.
* The network is a parameter `Net` of `fetchRaw` and `search`; what a call does to the
  outside is returned as a list of `Event`s.
* The parser of `regexp/syntax` refuses a pattern of more than `maxRunes` runes; this
  pattern reaches the bound through the challenge alone, and `MustCompile` counts its
  runes.  The memory of the machine is not modelled.
-/

namespace Goccmcp

/-! ## Strings and UTF-8 -/

/-- A Go string: a sequence of bytes (each below 256). -/
abbrev Str := List Nat

/-- The replacement rune `utf8.RuneError`. -/
def RuneError : Nat := 0xFFFD

/-- Continuation byte test: `locb <= b <= hicb`. -/
def isCont (b : Nat) : Bool := 0x80 ≤ b && b ≤ 0xBF

/-- The entry of the table `first` of package `utf8` for a lead byte at or above
`0x80`: the length of the sequence and the accepted range of the second byte;
length `0` for a byte that starts no sequence. -/
def first (b0 : Nat) : Nat × Nat × Nat :=
  if b0 < 0xC2 then (0, 0, 0)
  else if b0 < 0xE0 then (2, 0x80, 0xBF)
  else if b0 = 0xE0 then (3, 0xA0, 0xBF)
  else if b0 = 0xED then (3, 0x80, 0x9F)
  else if b0 < 0xF0 then (3, 0x80, 0xBF)
  else if b0 = 0xF0 then (4, 0x90, 0xBF)
  else if b0 < 0xF4 then (4, 0x80, 0xBF)
  else if b0 = 0xF4 then (4, 0x80, 0x8F)
  else (0, 0, 0)

/-- The last step of `utf8.DecodeRuneInString`: the fourth byte of a sequence. -/
def decode4 (b0 b1 b2 : Nat) : Str → Nat × Nat
  | [] => (RuneError, 1)
  | b3 :: _ =>
    if !isCont b3 then (RuneError, 1)
    else ((b0 % 8) * 262144 + (b1 % 64) * 4096 + (b2 % 64) * 64 + b3 % 64, 4)

/-- The third step of `utf8.DecodeRuneInString`: the third byte of a sequence. -/
def decode3 (b0 b1 : Nat) : Str → Nat × Nat
  | [] => (RuneError, 1)
  | b2 :: r2 =>
    if !isCont b2 then (RuneError, 1)
    else if (first b0).1 = 3 then ((b0 % 16) * 4096 + (b1 % 64) * 64 + b2 % 64, 3)
    else decode4 b0 b1 b2 r2

/-- The second step of `utf8.DecodeRuneInString`: the second byte of a sequence,
which has to lie in the range the lead byte accepts. -/
def decode2 (b0 : Nat) : Str → Nat × Nat
  | [] => (RuneError, 1)
  | b1 :: r1 =>
    if b1 < (first b0).2.1 || (first b0).2.2 < b1 then (RuneError, 1)
    else if (first b0).1 = 2 then ((b0 % 32) * 64 + b1 % 64, 2)
    else decode3 b0 b1 r1

/-- The function `utf8.DecodeRuneInString`: the first rune of the string and its
width in bytes; `(RuneError, 0)` on the empty string and `(RuneError, 1)` on an
invalid encoding. -/
def DecodeRuneInString : Str → Nat × Nat
  | [] => (RuneError, 0)
  | b0 :: r =>
    if b0 < 0x80 then (b0, 1)
    else if (first b0).1 = 0 then (RuneError, 1)
    else decode2 b0 r

/-- One decoding step over a string: the rune and the bytes it was decoded from. -/
structure Tok where
  rune : Nat
  bytes : Str
deriving DecidableEq, Repr

/-- Decodes a string rune by rune; `skip` counts the bytes that still belong to the
rune decoded last. -/
def runesAux : Str → Nat → List Tok
  | [], _ => []
  | b :: bs, 0 =>
    ⟨(DecodeRuneInString (b :: bs)).1, (b :: bs).take (DecodeRuneInString (b :: bs)).2⟩ ::
      runesAux bs ((DecodeRuneInString (b :: bs)).2 - 1)
  | _ :: bs, k + 1 => runesAux bs k

/-- The runes of a string, as a `for range` loop or the regexp engine reads them. -/
def runes (s : Str) : List Tok := runesAux s 0

/-- The bytes a sequence of decoding steps covers. -/
def bytesOf (ts : List Tok) : Str := ts.flatMap Tok.bytes

/-- An invalid byte: it decodes to `RuneError` with width one. -/
def Tok.bad (t : Tok) : Bool := t.rune == RuneError && t.bytes.length == 1

/-- The string is valid UTF-8 (`utf8.ValidString`). -/
def ValidString (s : Str) : Bool := (runes s).all (fun t => !t.bad)

/-- The function `utf8.AppendRune` on a valid code point: its UTF-8 encoding. -/
def encodeRune (r : Nat) : Str :=
  if r < 0x80 then [r]
  else if r < 0x800 then [0xC0 + r / 64, 0x80 + r % 64]
  else if r < 0x10000 then [0xE0 + r / 4096, 0x80 + (r / 64) % 64, 0x80 + r % 64]
  else [0xF0 + r / 262144, 0x80 + (r / 4096) % 64, 0x80 + (r / 64) % 64, 0x80 + r % 64]

/-- The bytes of a string literal. -/
def lit (s : String) : Str := s.toList.flatMap (fun c => encodeRune c.toNat)

/-! ## Unicode classes -/

/-- The predicate `unicode.IsSpace`. -/
def isSpace (r : Nat) : Bool :=
  (9 ≤ r && r ≤ 13) || r == 0x20 || r == 0x85 || r == 0xA0 || r == 0x1680 ||
  (0x2000 ≤ r && r ≤ 0x200A) || r == 0x2028 || r == 0x2029 || r == 0x202F ||
  r == 0x205F || r == 0x3000

/-- The class `\s` of Go regular expressions: `[\t\n\f\r ]`. -/
def reSpace (r : Nat) : Bool := r == 9 || r == 10 || r == 12 || r == 13 || r == 32

/-- The case-folding orbit of a rune, as `(?i)` uses it (`unicode.SimpleFold`).  The
orbits that contain an ASCII letter are those of the letter, with the Kelvin sign
in the orbit of `k` and the long s in the orbit of `s`; the orbit of any other rune
outside ASCII is given by the Unicode tables, the parameter `tbl`. -/
def foldClass (tbl : Nat → Nat) (r : Nat) : Nat ⊕ Nat :=
  if 0x41 ≤ r ∧ r ≤ 0x5A then .inl (r + 32)
  else if r < 0x80 then .inl r
  else if r = 0x212A then .inl 0x6B
  else if r = 0x17F then .inl 0x73
  else .inr (tbl r)

/-- A literal rune `a` of a pattern compiled under `(?i)` matches the rune `b`. -/
def foldEq (tbl : Nat → Nat) (a b : Nat) : Bool := decide (foldClass tbl a = foldClass tbl b)

/-! ## The regular-expression matcher -/

/-- How often a single-rune test is taken. -/
inductive Quant
  | one
  | star
  | lazyStar
  | plus
deriving DecidableEq, Repr

/-- A piece of a pattern: a test on one rune, its quantifier, and whether it lies
inside capture group 1. -/
structure Node where
  pred : Nat → Bool
  q : Quant
  cap : Bool

/-- A match: the runes of the whole match (`m[0]`) and those of group 1 (`m[1]`). -/
structure MatchRes where
  whole : List Tok
  grp : List Tok
deriving DecidableEq, Repr

/-- Records that the rune `t` was consumed in front of the match `r`. -/
def MatchRes.push (cap : Bool) (t : Tok) (r : MatchRes) : MatchRes :=
  ⟨t :: r.whole, if cap then t :: r.grp else r.grp⟩

/-- Greedy repetition: take one more rune if possible, fall back to the rest of the
pattern `k` otherwise. -/
def starG (p : Nat → Bool) (cap : Bool) (k : List Tok → Option MatchRes) :
    List Tok → Option MatchRes
  | [] => k []
  | t :: ts =>
    if p t.rune then
      match starG p cap k ts with
      | some r => some (r.push cap t)
      | none => k (t :: ts)
    else k (t :: ts)

/-- Lazy repetition: try the rest of the pattern `k` first, take one more rune only
if that fails. -/
def starL (p : Nat → Bool) (cap : Bool) (k : List Tok → Option MatchRes) :
    List Tok → Option MatchRes
  | [] => k []
  | t :: ts =>
    match k (t :: ts) with
    | some r => some r
    | none => if p t.rune then (starL p cap k ts).map (MatchRes.push cap t) else none

/-- Matches a one-rune test at the head of the input, then `k`. -/
def oneStep (p : Nat → Bool) (cap : Bool) (k : List Tok → Option MatchRes) :
    List Tok → Option MatchRes
  | [] => none
  | t :: ts => if p t.rune then (k ts).map (MatchRes.push cap t) else none

/-- The match of a pattern anchored at the start of the input, the first one in
backtracking order. -/
def matchNodes : List Node → List Tok → Option MatchRes
  | [] => fun _ => some ⟨[], []⟩
  | n :: ns =>
    match n.q with
    | .one => oneStep n.pred n.cap (matchNodes ns)
    | .star => starG n.pred n.cap (matchNodes ns)
    | .lazyStar => starL n.pred n.cap (matchNodes ns)
    | .plus => oneStep n.pred n.cap (starG n.pred n.cap (matchNodes ns))

/-- The loop of `Regexp.allMatches`: the successive leftmost matches, none
overlapping.  `skip` counts the runes left of the match found last; `prevEnd` says
that the match found last ends at the current position, where an empty match is not
accepted. -/
def findAllAux (re : List Node) : List Tok → Nat → Bool → List MatchRes
  | [], skip, prevEnd =>
    if skip = 0 then
      match matchNodes re [] with
      | some r => if prevEnd then [] else [r]
      | none => []
    else []
  | _ :: ts, skip + 1, _ => findAllAux re ts skip true
  | t :: ts, 0, prevEnd =>
    match matchNodes re (t :: ts) with
    | none => findAllAux re ts 0 false
    | some r =>
      if r.whole.length = 0 then
        if prevEnd then findAllAux re ts 0 false else r :: findAllAux re ts 0 false
      else r :: findAllAux re ts (r.whole.length - 1) true

/-- The method `Regexp.FindAllStringSubmatch(s, -1)` of a pattern with one group:
for each match the slice `[m[0], m[1]]`. -/
def FindAllStringSubmatch (re : List Node) (s : Str) : List (List Str) :=
  (findAllAux re (runes s) 0 false).map (fun r => [bytesOf r.whole, bytesOf r.grp])

/-! ## The pattern of `extractMarkdownLinkHrefByText` -/

/-- The bytes `regexp.QuoteMeta` escapes: the characters of the string
"\\.+*?()|[]{}^$". -/
def special (b : Nat) : Bool :=
  b == 0x5C || b == 0x2E || b == 0x2B || b == 0x2A || b == 0x3F || b == 0x28 ||
  b == 0x29 || b == 0x7C || b == 0x5B || b == 0x5D || b == 0x7B || b == 0x7D ||
  b == 0x5E || b == 0x24

/-- The function `regexp.QuoteMeta`: a backslash in front of every special byte. -/
def QuoteMeta (s : Str) : Str := s.flatMap (fun b => if special b then [0x5C, b] else [b])

/-- An ASCII letter or digit (`isalnum` of `regexp/syntax`): after a backslash such
a rune starts a class or an escape sequence, any other ASCII rune is taken
literally. -/
def isalnum (r : Nat) : Bool :=
  (0x30 ≤ r && r ≤ 0x39) || (0x41 ≤ r && r ≤ 0x5A) || (0x61 ≤ r && r ≤ 0x7A)

/-- The runes that the parser of `regexp/syntax` may take as something else than a
literal when they stand unescaped: the characters of the string "\\.+*?()|[{^$". -/
def isMeta (r : Nat) : Bool :=
  r == 0x5C || r == 0x2E || r == 0x2B || r == 0x2A || r == 0x3F || r == 0x28 ||
  r == 0x29 || r == 0x7C || r == 0x5B || r == 0x7B || r == 0x5E || r == 0x24

/-- What the parser of `regexp/syntax` makes of a stretch of a pattern. -/
inductive ParseRun
  /-- A sequence of literal runes, nothing else. -/
  | literals (rs : List Nat)
  /-- The error `ErrInvalidUTF8`: the stretch holds an invalid byte. -/
  | invalidUTF8
  /-- Something other than a literal rune stands in the stretch: an operator, a
  class, a group, an escape sequence or a dangling backslash. -/
  | nonLiteral
deriving DecidableEq, Repr

/-- Puts a literal rune in front of a run of literals. -/
def ParseRun.cons (r : Nat) : ParseRun → ParseRun
  | .literals rs => .literals (r :: rs)
  | .invalidUTF8 => .invalidUTF8
  | .nonLiteral => .nonLiteral

/-- The parser of `regexp/syntax` on a stretch of a pattern, read as literals: a
backslash followed by an ASCII rune that is no letter or digit is that
rune; an unescaped rune that is no metacharacter is itself; an invalid byte is the
error `ErrInvalidUTF8`. -/
def parseLiteralRun : List Tok → ParseRun
  | [] => .literals []
  | t :: ts =>
    if t.bad then .invalidUTF8
    else if t.rune = 0x5C then
      match ts with
      | [] => .nonLiteral
      | e :: ts2 =>
        if e.bad then .invalidUTF8
        else if e.rune < 0x80 && !isalnum e.rune then (parseLiteralRun ts2).cons e.rune
        else .nonLiteral
    else if isMeta t.rune then .nonLiteral
    else (parseLiteralRun ts).cons t.rune

/-- A literal rune under `(?i)`. -/
def litNode (tbl : Nat → Nat) (r : Nat) : Node := ⟨foldEq tbl r, .one, false⟩

/-- The runes of the phrase "build your own ". -/
def phrase : List Nat := lit "build your own "

/-- The class `[^) \t\r\n]` of the capture group. -/
def targetRune (r : Nat) : Bool := !(r == 0x29 || r == 0x20 || r == 9 || r == 13 || r == 10)

/-- The pattern
`(?i)\[\s*build your own %s.*?\s*]\(\s*([^) \t\r\n]+)\s*(?:[^)]*)\)`
with the literal runes `chal` in the place of `%s`. -/
def patternNodes (tbl : Nat → Nat) (chal : List Nat) : List Node :=
  [litNode tbl 0x5B, ⟨reSpace, .star, false⟩] ++
  phrase.map (litNode tbl) ++
  chal.map (litNode tbl) ++
  [⟨fun r => r != 10, .lazyStar, false⟩,
   ⟨reSpace, .star, false⟩,
   litNode tbl 0x5D,
   litNode tbl 0x28,
   ⟨reSpace, .star, false⟩,
   ⟨targetRune, .plus, true⟩,
   ⟨reSpace, .star, false⟩,
   ⟨fun r => r != 0x29, .star, false⟩,
   litNode tbl 0x29]

/-- How a call ends: it returns, it panics, or it leaves what is modelled here. -/
inductive Run (α : Type)
  | ret (a : α)
  | panic
  | unmodelled
deriving DecidableEq, Repr

/-- The bound `maxRunes` of `regexp/syntax`, `128<<20 / runeSize` with a rune of four
bytes: the parser counts the runes of the nodes it builds and gives up with the error
`ErrLarge` ("expression too large") once the count is above the bound. -/
def maxRunes : Nat := 128 * 2 ^ 20 / 4

/-- What the fixed parts of the pattern add to the count of the parser, which grows
by the length of the rune list of every node pushed: a literal rune counts one, a
class counts two for each of its ranges, `.` counts nothing.  In the order of the
pattern: `\[` (1), `\s` (three ranges, 6), the phrase (15), `\s` (6), `]` (1), `\(` (1),
`\s` (6), `[^) \t\r\n]` (five ranges, 10), `\s` (6), `[^)]` (two ranges, 4), `\)` (1). -/
def fixedRunes : Nat := 1 + 6 + 15 + 6 + 1 + 1 + 6 + 10 + 6 + 4 + 1

/-- The call `regexp.MustCompile(pat)` for the pattern built from the quoted
challenge `quoted`: the fixed parts of the format string are the nodes of
`patternNodes`, the argument is parsed as the parser reads it.  The call panics when
the parser rejects the pattern: for an invalid byte, and for a pattern whose count of
runes, `fixedRunes` and one for each rune of the challenge, is above `maxRunes`. -/
def MustCompile (tbl : Nat → Nat) (quoted : Str) : Run (List Node) :=
  match parseLiteralRun (runes quoted) with
  | .literals rs =>
    if fixedRunes + rs.length > maxRunes then .panic else .ret (patternNodes tbl rs)
  | .invalidUTF8 => .panic
  | .nonLiteral => .unmodelled

/-- The function `strings.TrimSpace`: the string without its leading and trailing
white space, as Unicode defines it.  Go reads the end of the string backwards, with
`utf8.DecodeLastRuneInString`; the runes it finds there are the last ones the
decoder finds from the start, so both ends are trimmed on the decoded runes. -/
def TrimSpace (s : Str) : Str :=
  bytesOf (((runes s).dropWhile (fun t => isSpace t.rune)).reverse.dropWhile
    (fun t => isSpace t.rune)).reverse

/-- A Go error value, with its message. -/
structure GoError where
  msg : Str
deriving DecidableEq, Repr

/-- The body of the loop over the matches in `extractMarkdownLinkHrefByText`. -/
def appendTarget (out : List Str) (m : List Str) : List Str :=
  if m.length < 2 then out else out ++ [TrimSpace (m.getD 1 [])]

/-- The function `extractMarkdownLinkHrefByText` of `main.go`.  The slice it
returns is `none` when it is nil. -/
def extractMarkdownLinkHrefByText (tbl : Nat → Nat) (content challenge : Str) :
    Run (Option (List Str) × Option GoError) :=
  match MustCompile tbl (QuoteMeta challenge) with
  | .panic => .panic
  | .unmodelled => .unmodelled
  | .ret re =>
    if (FindAllStringSubmatch re content).length = 0 then .ret (none, none)
    else .ret (some ((FindAllStringSubmatch re content).foldl appendTarget []), none)

/-! ## The fetcher -/

/-- A response body as a reader: it yields `data`, then fails with `err`, or ends
when `err` is `none`. -/
structure Reader where
  data : Str
  err : Option GoError
deriving DecidableEq, Repr

/-- The function `io.LimitReader`: the reader stops with EOF after `n` bytes. -/
def LimitReader (r : Reader) (n : Nat) : Reader :=
  ⟨r.data.take n, if r.data.length < n then r.err else none⟩

/-- The function `io.ReadAll`: what was read, and the error that stopped the read. -/
def ReadAll (r : Reader) : Str × Option GoError := (r.data, r.err)

/-- An HTTP response: `StatusCode`, `Status` and `Body` of `http.Response`. -/
structure Response where
  StatusCode : Nat
  Status : Str
  Body : Reader
deriving DecidableEq, Repr

/-- The network as one call sees it: the error of `http.NewRequestWithContext` for
a URL, if any, and the outcome of `client.Do` for a GET request to a URL. -/
structure Net where
  newRequest : Str → Option GoError
  roundTrip : Str → Except GoError Response

/-- What a call does to the outside, in order. -/
inductive Event
  /-- A GET request was sent to the URL. -/
  | get (url : Str)
  /-- The call `fmt.Println(err)`. -/
  | println (e : GoError)
  /-- The extractor `extractMarkdownLinkHrefByText` was called. -/
  | extract (content challenge : Str)
deriving DecidableEq, Repr

/-- The constant `http.StatusOK`. -/
def StatusOK : Nat := 200

/-- The function `fetchRaw` of `main.go`: the document and the error it returns,
and the requests it sent. -/
def fetchRaw (net : Net) (url : Str) : (Str × Option GoError) × List Event :=
  match net.newRequest url with
  | some err => (([], some err), [])
  | none =>
    match net.roundTrip url with
    | .error err => (([], some err), [.get url])
    | .ok resp =>
      if resp.StatusCode ≠ StatusOK then
        (([], some ⟨lit "GET " ++ url ++ lit ": status " ++ resp.Status ++ lit ": " ++
          (ReadAll (LimitReader resp.Body (8 * 2 ^ 10))).1⟩), [.get url])
      else
        match ReadAll resp.Body with
        | (_, some err) => (([], some err), [.get url])
        | (b, none) => ((b, none), [.get url])

/-! ## The tool -/

/-- The constant `sharedSolutionsRepo`. -/
def sharedSolutionsRepo : Str :=
  lit "https://raw.githubusercontent.com/CodingChallengesFYI/SharedSolutions/refs/heads/main/README.md"

/-- The type `Input` of `main.go`. -/
structure Input where
  Challenge : Str
deriving DecidableEq, Repr

/-- The type `Output` of `main.go`; a nil slice is `none`. -/
structure Output where
  Solutions : Option (List Str)
deriving DecidableEq, Repr

/-- What `search` returns: the `*mcp.CallToolResult` (always nil in `main.go`), the
`Output` and the error. -/
structure SearchRet where
  result : Option Unit
  out : Output
  err : Option GoError
deriving DecidableEq, Repr

/-- The function `search` of `main.go`: how the call ends, and what it did to the
outside up to there. -/
def search (tbl : Nat → Nat) (net : Net) (input : Input) : Run SearchRet × List Event :=
  if TrimSpace input.Challenge = [] then
    (.ret ⟨none, ⟨none⟩, some ⟨lit "Coding Challenge name cannot be empty"⟩⟩, [])
  else
    match fetchRaw net sharedSolutionsRepo with
    | ((_, some err), evs) => (.ret ⟨none, ⟨none⟩, some err⟩, evs ++ [.println err])
    | ((content, none), evs) =>
      match extractMarkdownLinkHrefByText tbl content input.Challenge with
      | .panic => (.panic, evs ++ [.extract content input.Challenge])
      | .unmodelled => (.unmodelled, evs ++ [.extract content input.Challenge])
      | .ret (_, some err) =>
        (.ret ⟨none, ⟨none⟩, some err⟩, evs ++ [.extract content input.Challenge])
      | .ret (url, none) =>
        (.ret ⟨none,
          ⟨some (if (url.getD []).length > 0 then [] ++ url.getD [] else [])⟩, none⟩,
         evs ++ [.extract content input.Challenge])

/-- The encoding of an `Output` by `encoding/json`, as the fields of a JSON object,
each an array of strings.  The field `Solutions` carries the tag
`json:"solutions,omitempty"`: it is left out when the slice is nil or has length
zero. -/
def marshalOutput (o : Output) : List (String × List Str) :=
  match o.Solutions with
  | none => []
  | some [] => []
  | some (x :: xs) => [("solutions", x :: xs)]

/-! ## Auxiliary definitions for the proofs -/

/-- The bytes at or above `0x80` a string starts with. -/
def hiPre (r : Str) : Str := r.takeWhile (fun b => decide (0x80 ≤ b))

/-- The parser accepts the pattern built from the challenge: the challenge is valid
UTF-8 and the count of runes of the pattern is within `maxRunes`. -/
def Accepted (c : Str) : Bool :=
  ValidString c && decide (fixedRunes + (runes c).length ≤ maxRunes)

/-- The decoding step of one ASCII byte. -/
def asciiTok (b : Nat) : Tok := ⟨b, [b]⟩

/-- The effect on a decoding step of a substitution of ASCII bytes: an ASCII rune
is replaced by the runes of its substitute, any other step is left alone. -/
def substTok (g : Nat → Str) (t : Tok) : List Tok :=
  if t.rune < 0x80 then (g t.rune).map asciiTok else [t]

/-- Records that the runes `xs` were consumed in front of the match `r`. -/
def pushAll (cap : Bool) (xs : List Tok) (r : MatchRes) : MatchRes :=
  ⟨xs ++ r.whole, if cap then xs ++ r.grp else r.grp⟩

/-- The runes `toks` are, one by one, what the literal runes `rs` match under
case folding. -/
def FoldMatch (tbl : Nat → Nat) (rs : List Nat) (toks : List Tok) : Prop :=
  List.Forall₂ (fun r t => foldEq tbl r t.rune = true) rs toks

/-- The end of the pattern: `\s*(?:[^)]*)\)`. -/
def closeNodes (tbl : Nat → Nat) : List Node :=
  [⟨reSpace, .star, false⟩, ⟨fun r => r != 0x29, .star, false⟩, litNode tbl 0x29]

/-- The pattern from the capture group on: `([^) \t\r\n]+)\s*(?:[^)]*)\)`. -/
def targetNodes (tbl : Nat → Nat) : List Node :=
  ⟨targetRune, .plus, true⟩ :: closeNodes tbl

/-- The pattern from the end of the anchor text on:
`\s*]\(\s*([^) \t\r\n]+)\s*(?:[^)]*)\)`. -/
def anchorEndNodes (tbl : Nat → Nat) : List Node :=
  [⟨reSpace, .star, false⟩, litNode tbl 0x5D, litNode tbl 0x28, ⟨reSpace, .star, false⟩] ++
    targetNodes tbl

/-- The pattern after the challenge: `.*?\s*]\(\s*([^) \t\r\n]+)\s*(?:[^)]*)\)`. -/
def restNodes (tbl : Nat → Nat) : List Node :=
  ⟨fun r => r != 10, .lazyStar, false⟩ :: anchorEndNodes tbl

/-- A network on which every request gets the same response. -/
def constNet (resp : Except GoError Response) : Net := ⟨fun _ => none, fun _ => resp⟩

/-- The shape of a match of the pattern for the literal runes `chal`: an opening
bracket, white space, the phrase and the challenge up to case, runes other than a
newline, white space, a closing bracket, an opening parenthesis, white space, the
captured runes `cap`, a title without a closing parenthesis, and a closing
parenthesis.  The capture is not empty, holds no closing parenthesis, space, tab,
carriage return or newline, and is followed by such a rune. -/
def LinkMatch (tbl : Nat → Nat) (chal : List Nat) (whole cap : List Tok) : Prop :=
  ∃ lb ws pc mid ws1 rb lp ws2 title rp,
    whole = lb :: (ws ++ (pc ++ (mid ++ (ws1 ++ rb :: lp :: (ws2 ++ (cap ++ (title ++ [rp]))))))) ∧
    lb.rune = 0x5B ∧ (∀ t ∈ ws, reSpace t.rune = true) ∧
    FoldMatch tbl (phrase ++ chal) pc ∧
    (∀ t ∈ mid, t.rune ≠ 10) ∧ (∀ t ∈ ws1, reSpace t.rune = true) ∧
    rb.rune = 0x5D ∧ lp.rune = 0x28 ∧ (∀ t ∈ ws2, reSpace t.rune = true) ∧
    cap ≠ [] ∧ (∀ t ∈ cap, targetRune t.rune = true) ∧
    (∀ t ∈ title, t.rune ≠ 0x29) ∧ (∀ t, title.head? = some t → targetRune t.rune = false) ∧
    rp.rune = 0x29

/-- An ASCII capital letter is replaced by its small letter, any other byte or rune
is left alone. -/
def asciiFold (b : Nat) : Nat := if 0x41 ≤ b ∧ b ≤ 0x5A then b + 32 else b

/-- The string with its ASCII capital letters replaced by small letters. -/
def asciiLower (s : Str) : Str := s.map asciiFold

/-- The string with its ASCII small letters replaced by capital letters. -/
def asciiUpper (s : Str) : Str := s.map (fun b => if 0x61 ≤ b ∧ b ≤ 0x7A then b - 32 else b)

/-- The strings differ in the case of ASCII letters at most. -/
def CaseVariant (s s2 : Str) : Prop :=
  List.Forall₂ (fun a b => asciiFold a = asciiFold b) s s2

/-- The decoding steps differ in the case of an ASCII letter at most. -/
def TokVariant (t t2 : Tok) : Prop :=
  asciiFold t.rune = asciiFold t2.rune ∧ CaseVariant t.bytes t2.bytes

/-- The test does not tell the two cases of an ASCII letter apart. -/
def CaseInv (p : Nat → Bool) : Prop := ∀ a b, asciiFold a = asciiFold b → p a = p b

/-- The matches differ in the case of ASCII letters at most. -/
def ResVariant (r r2 : MatchRes) : Prop :=
  List.Forall₂ TokVariant r.whole r2.whole ∧ List.Forall₂ TokVariant r.grp r2.grp

/-- Both searches fail, or both succeed with matches that differ in the case of ASCII
letters at most. -/
def OptVariant : Option MatchRes → Option MatchRes → Prop
  | none, none => True
  | some r, some r2 => ResVariant r r2
  | _, _ => False

/-- The outcomes of two calls of the extractor agree up to the case of ASCII letters
in the targets: both panic, or both return a nil slice, or both return slices of the
same length whose targets differ in the case of ASCII letters at most. -/
def RunVariant :
    Run (Option (List Str) × Option GoError) → Run (Option (List Str) × Option GoError) → Prop
  | .ret (some l, e), .ret (some l2, e2) => List.Forall₂ CaseVariant l l2 ∧ e = e2
  | .ret (none, e), .ret (none, e2) => e = e2
  | .panic, .panic => True
  | .unmodelled, .unmodelled => True
  | _, _ => False

/-- A rune that is no bracket, no parenthesis and no newline. -/
def plainRune (r : Nat) : Bool :=
  !(r == 0x5B || r == 0x5D || r == 0x28 || r == 0x29 || r == 10)

/-- A rune that is no white space and no parenthesis. -/
def urlRune (r : Nat) : Bool := !(isSpace r || r == 0x28 || r == 0x29)

/-- The line `- [Build your own <c><t>](<u>)<r>` of a document, with its newline. -/
def line (c t u r : Str) : Str :=
  lit "- [Build your own " ++ c ++ t ++ lit "](" ++ u ++ lit ")" ++ r ++ lit "\n"

/-- The document made of one line for each anchor tail, link target and trailer. -/
def document (c : Str) (lines : List (Str × Str × Str)) : Str :=
  lines.flatMap (fun l => line c l.1 l.2.1 l.2.2)

/-! ## Theorems -/

theorem first_range (b0 : Nat) (h : (first b0).1 ≠ 0) :
    0x80 ≤ (first b0).2.1 ∧ (first b0).2.2 ≤ 0xBF ∧ 0xC2 ≤ b0 ∧
    ((first b0).1 = 2 ∨ (first b0).1 = 3 ∨ (first b0).1 = 4) := by
  unfold first at h ⊢
  split_ifs at h ⊢ <;> simp_all

theorem decode4_size (b0 b1 b2 : Nat) (s : Str) :
    1 ≤ (decode4 b0 b1 b2 s).2 ∧ (decode4 b0 b1 b2 s).2 ≤ s.length + 3 := by
  cases s <;> simp [decode4] <;> split_ifs <;> simp

theorem decode3_size (b0 b1 : Nat) (s : Str) :
    1 ≤ (decode3 b0 b1 s).2 ∧ (decode3 b0 b1 s).2 ≤ s.length + 2 := by
  cases s with
  | nil => simp [decode3]
  | cons b2 r =>
    have := decode4_size b0 b1 b2 r
    simp [decode3]; split_ifs <;> (try simp) <;> omega

theorem decode2_size (b0 : Nat) (s : Str) :
    1 ≤ (decode2 b0 s).2 ∧ (decode2 b0 s).2 ≤ s.length + 1 := by
  cases s with
  | nil => simp [decode2]
  | cons b1 r =>
    have := decode3_size b0 b1 r
    simp [decode2]; split_ifs <;> (try simp) <;> omega

theorem decode_size_pos (b : Nat) (s : Str) :
    1 ≤ (DecodeRuneInString (b :: s)).2 ∧
    (DecodeRuneInString (b :: s)).2 ≤ (b :: s).length := by
  have := decode2_size b s
  simp [DecodeRuneInString]; split_ifs <;> (try simp) <;> omega

theorem runesAux_drop (s : Str) (k : Nat) : runesAux s k = runes (s.drop k) := by
  induction s generalizing k with
  | nil => simp [runes, runesAux]
  | cons b bs ih =>
    cases k with
    | zero => simp [runes]
    | succ k => simp [runesAux, ih k]

theorem runes_nil : runes [] = [] := rfl

theorem runes_cons (b : Nat) (s : Str) :
    runes (b :: s) =
      ⟨(DecodeRuneInString (b :: s)).1, (b :: s).take (DecodeRuneInString (b :: s)).2⟩ ::
        runes ((b :: s).drop (DecodeRuneInString (b :: s)).2) := by
  have h := decode_size_pos b s
  conv_lhs => unfold runes runesAux
  rw [runesAux_drop]
  congr 2
  obtain ⟨n, hn⟩ : ∃ n, (DecodeRuneInString (b :: s)).2 = n + 1 :=
    ⟨(DecodeRuneInString (b :: s)).2 - 1, by omega⟩
  rw [hn]; simp

theorem hiPre_cons_hi (b : Nat) (r : Str) (h : 0x80 ≤ b) : hiPre (b :: r) = b :: hiPre r := by
  simp [hiPre, List.takeWhile, h]

theorem hiPre_cons_lo (b : Nat) (r : Str) (h : b < 0x80) : hiPre (b :: r) = [] := by
  simp [hiPre, List.takeWhile, Nat.not_le.mpr h]

theorem not_isCont_of_lt (b : Nat) (h : b < 0x80) : isCont b = false := by
  simp [isCont]; omega

theorem decode4_hiPre (b0 b1 b2 : Nat) (r : Str) :
    decode4 b0 b1 b2 r = decode4 b0 b1 b2 (hiPre r) ∧
    (decode4 b0 b1 b2 r).2 ≤ (hiPre r).length + 3 := by
  cases r with
  | nil => simp [hiPre, decode4]
  | cons b3 r =>
    by_cases h : 0x80 ≤ b3
    · rw [hiPre_cons_hi _ _ h]; simp [decode4]; split_ifs <;> simp
    · rw [hiPre_cons_lo _ _ (by omega)]; simp [decode4, not_isCont_of_lt b3 (by omega)]

theorem decode3_hiPre (b0 b1 : Nat) (r : Str) :
    decode3 b0 b1 r = decode3 b0 b1 (hiPre r) ∧
    (decode3 b0 b1 r).2 ≤ (hiPre r).length + 2 := by
  cases r with
  | nil => simp [hiPre, decode3]
  | cons b2 r =>
    by_cases h : 0x80 ≤ b2
    · have := decode4_hiPre b0 b1 b2 r
      rw [hiPre_cons_hi _ _ h]; simp only [decode3]
      split_ifs
      · simp
      · simp
      · exact ⟨this.1, by have := this.2; simp only [List.length_cons]; omega⟩
    · rw [hiPre_cons_lo _ _ (by omega)]; simp [decode3, not_isCont_of_lt b2 (by omega)]

theorem decode2_hiPre (b0 : Nat) (r : Str) (hf : (first b0).1 ≠ 0) :
    decode2 b0 r = decode2 b0 (hiPre r) ∧
    (decode2 b0 r).2 ≤ (hiPre r).length + 1 := by
  have hr := first_range b0 hf
  cases r with
  | nil => simp [hiPre, decode2]
  | cons b1 r =>
    by_cases h : 0x80 ≤ b1
    · have := decode3_hiPre b0 b1 r
      rw [hiPre_cons_hi _ _ h]; simp only [decode2]
      split_ifs
      · simp
      · simp
      · exact ⟨this.1, by have := this.2; simp only [List.length_cons]; omega⟩
    · rw [hiPre_cons_lo _ _ (by omega)]
      have : b1 < (first b0).2.1 := by omega
      simp [decode2, this]

theorem decode_hiPre (b0 : Nat) (r : Str) :
    DecodeRuneInString (b0 :: r) = DecodeRuneInString (b0 :: hiPre r) ∧
    (DecodeRuneInString (b0 :: r)).2 ≤ (hiPre r).length + 1 := by
  simp only [DecodeRuneInString]
  split_ifs with h1 h2
  · simp
  · simp
  · exact decode2_hiPre b0 r h2

theorem first_cases (b0 : Nat) :
    ((b0 < 0xC2 ∨ 0xF4 < b0) ∧ first b0 = (0, 0, 0)) ∨
    ((0xC2 ≤ b0 ∧ b0 < 0xE0) ∧ first b0 = (2, 0x80, 0xBF)) ∨
    (b0 = 0xE0 ∧ first b0 = (3, 0xA0, 0xBF)) ∨
    (b0 = 0xED ∧ first b0 = (3, 0x80, 0x9F)) ∨
    ((0xE1 ≤ b0 ∧ b0 < 0xF0 ∧ b0 ≠ 0xED) ∧ first b0 = (3, 0x80, 0xBF)) ∨
    (b0 = 0xF0 ∧ first b0 = (4, 0x90, 0xBF)) ∨
    ((0xF1 ≤ b0 ∧ b0 < 0xF4) ∧ first b0 = (4, 0x80, 0xBF)) ∨
    (b0 = 0xF4 ∧ first b0 = (4, 0x80, 0x8F)) := by
  unfold first
  by_cases h1 : b0 < 0xC2
  · simp [h1]
  by_cases h2 : b0 < 0xE0
  · simp [h1, h2]; omega
  by_cases h3 : b0 = 0xE0
  · simp [h3]
  by_cases h4 : b0 = 0xED
  · simp [h4]
  by_cases h5 : b0 < 0xF0
  · simp [h1, h2, h3, h4, h5]; omega
  by_cases h6 : b0 = 0xF0
  · simp [h6]
  by_cases h7 : b0 < 0xF4
  · simp [h1, h2, h3, h4, h5, h6, h7]; omega
  by_cases h8 : b0 = 0xF4
  · simp [h8]
  · simp [h1, h2, h3, h4, h5, h6, h7, h8]; omega

theorem decode_rune_ge (b0 : Nat) (r : Str) (h : 0x80 ≤ b0) :
    0x80 ≤ (DecodeRuneInString (b0 :: r)).1 := by
  have hlt : ¬ b0 < 0x80 := by omega
  simp only [DecodeRuneInString, hlt, if_false]
  rcases first_cases b0 with ⟨_, hf⟩ | ⟨hb, hf⟩ | ⟨hb, hf⟩ | ⟨hb, hf⟩ | ⟨hb, hf⟩ | ⟨hb, hf⟩ |
    ⟨hb, hf⟩ | ⟨hb, hf⟩ <;> rw [hf] <;> simp only [RuneError] <;>
  (rcases r with _ | ⟨b1, _ | ⟨b2, _ | ⟨b3, r⟩⟩⟩ <;>
    simp [decode2, decode3, decode4, hf, RuneError, isCont] <;>
    (try split_ifs) <;> (try simp) <;> omega)

theorem decode_ascii (b0 : Nat) (r : Str) (h : b0 < 0x80) :
    DecodeRuneInString (b0 :: r) = (b0, 1) := by
  simp [DecodeRuneInString, h]

theorem runes_cons_ascii (b0 : Nat) (r : Str) (h : b0 < 0x80) :
    runes (b0 :: r) = asciiTok b0 :: runes r := by
  rw [runes_cons, decode_ascii b0 r h]; simp [asciiTok]

theorem runes_ascii_append (a : Str) (r : Str) (h : ∀ b ∈ a, b < 0x80) :
    runes (a ++ r) = a.map asciiTok ++ runes r := by
  induction a with
  | nil => simp
  | cons b a ih =>
    simp only [List.cons_append, List.map_cons]
    rw [runes_cons_ascii _ _ (h b (by simp)), ih (fun x hx => h x (by simp [hx]))]

theorem hiPre_flatMap (g : Nat → Str) (hhi : ∀ b, 0x80 ≤ b → g b = [b])
    (hlo : ∀ b, b < 0x80 → g b ≠ [] ∧ ∀ x ∈ g b, x < 0x80) (r : Str) :
    hiPre (r.flatMap g) = hiPre r := by
  induction r with
  | nil => rfl
  | cons c r ih =>
    by_cases h : 0x80 ≤ c
    · simp only [List.flatMap_cons, hhi c h, List.singleton_append]
      rw [hiPre_cons_hi _ _ h, hiPre_cons_hi _ _ h, ih]
    · have hc := hlo c (by omega)
      rw [hiPre_cons_lo _ _ (by omega)]
      simp only [List.flatMap_cons]
      cases hg : g c with
      | nil => exact absurd hg hc.1
      | cons y ys =>
        have : y < 0x80 := hc.2 y (by simp [hg])
        simp only [List.cons_append]
        exact hiPre_cons_lo _ _ this

theorem take_drop_flatMap (g : Nat → Str) (hhi : ∀ b, 0x80 ≤ b → g b = [b]) (r : Str) (k : Nat)
    (hk : k ≤ (hiPre r).length) :
    (r.flatMap g).take k = r.take k ∧ (r.flatMap g).drop k = (r.drop k).flatMap g := by
  induction r generalizing k with
  | nil => simp
  | cons c r ih =>
    cases k with
    | zero => simp
    | succ k =>
      by_cases h : 0x80 ≤ c
      · rw [hiPre_cons_hi _ _ h] at hk
        have := ih k (by simpa using hk)
        simp only [List.flatMap_cons, hhi c h, List.singleton_append, List.take_succ_cons,
          List.drop_succ_cons]
        exact ⟨by rw [this.1], this.2⟩
      · rw [hiPre_cons_lo _ _ (by omega)] at hk
        simp at hk

/-- Decoding commutes with a substitution of ASCII bytes by ASCII bytes. -/
theorem runes_flatMap (g : Nat → Str) (hhi : ∀ b, 0x80 ≤ b → g b = [b])
    (hlo : ∀ b, b < 0x80 → g b ≠ [] ∧ ∀ x ∈ g b, x < 0x80) (s : Str) :
    runes (s.flatMap g) = (runes s).flatMap (substTok g) := by
  generalize h : s.length = n
  induction n using Nat.strong_induction_on generalizing s with
  | _ n ih =>
    cases s with
    | nil => simp [runes_nil]
    | cons b0 r =>
      by_cases hb : b0 < 0x80
      · rw [runes_cons_ascii _ _ hb]
        simp only [List.flatMap_cons]
        rw [runes_ascii_append _ _ (hlo b0 hb).2, ih _ (by subst h; simp) r rfl]
        simp [substTok, asciiTok, hb]
      · have hb' : 0x80 ≤ b0 := by omega
        have h1 := decode_hiPre b0 (r.flatMap g)
        have h2 := decode_hiPre b0 r
        have h3 := decode_size_pos b0 r
        rw [hiPre_flatMap g hhi hlo] at h1
        have hd : DecodeRuneInString (b0 :: r.flatMap g) = DecodeRuneInString (b0 :: r) := by
          rw [h1.1, h2.1]
        have hge := decode_rune_ge b0 r hb'
        simp only [List.flatMap_cons, hhi b0 hb', List.singleton_append]
        rw [runes_cons, runes_cons b0 r, hd]
        obtain ⟨k, hk⟩ : ∃ k, (DecodeRuneInString (b0 :: r)).2 = k + 1 :=
          ⟨(DecodeRuneInString (b0 :: r)).2 - 1, by omega⟩
        have htd := take_drop_flatMap g hhi r k (by omega)
        rw [hk]
        simp only [List.take_succ_cons, List.drop_succ_cons, List.flatMap_cons]
        rw [htd.1, htd.2, ih _ (by subst h; simp; omega) _ rfl]
        have : ¬ (DecodeRuneInString (b0 :: r)).1 < 0x80 := by omega
        simp [substTok, this]

theorem special_lt (b : Nat) (h : special b = true) : b < 0x80 := by
  simp [special] at h; omega

theorem special_not_alnum (b : Nat) (h : special b = true) : isalnum b = false := by
  simp [special] at h
  simp [isalnum]; omega

theorem isMeta_special (b : Nat) (h : special b = false) : isMeta b = false ∧ b ≠ 0x5C := by
  simp [special] at h
  simp [isMeta]; omega

theorem asciiTok_bad (b : Nat) (h : b < 0x80) : (asciiTok b).bad = false := by
  simp [asciiTok, Tok.bad, RuneError]; omega

theorem parse_cons_bad (t : Tok) (ts : List Tok) (h : t.bad = true) :
    parseLiteralRun (t :: ts) = .invalidUTF8 := by
  rw [parseLiteralRun.eq_def]; simp [h]

theorem parse_cons_plain (t : Tok) (ts : List Tok) (h : t.bad = false) (h5 : t.rune ≠ 0x5C)
    (hm : isMeta t.rune = false) :
    parseLiteralRun (t :: ts) = (parseLiteralRun ts).cons t.rune := by
  rw [parseLiteralRun.eq_def]; simp [h, h5, hm]

theorem parse_cons_esc (t e : Tok) (ts : List Tok) (h : t.bad = false) (h5 : t.rune = 0x5C)
    (he : e.bad = false) (hlt : e.rune < 0x80) (hal : isalnum e.rune = false) :
    parseLiteralRun (t :: e :: ts) = (parseLiteralRun ts).cons e.rune := by
  rw [parseLiteralRun.eq_def]; simp [h, h5, he, hlt, hal]

theorem parse_quoted (ts : List Tok) :
    parseLiteralRun (ts.flatMap (substTok (fun b => if special b then [0x5C, b] else [b]))) =
      if ts.all (fun t => !t.bad) then .literals (ts.map Tok.rune) else .invalidUTF8 := by
  induction ts with
  | nil => simp [parseLiteralRun]
  | cons t ts ih =>
    simp only [List.flatMap_cons, List.all_cons, List.map_cons]
    by_cases hlt : t.rune < 0x80
    · have hnb : t.bad = false := by
        simp [Tok.bad, RuneError]; intro h; omega
      have h2 := asciiTok_bad _ hlt
      by_cases hs : special t.rune = true
      · have h1 := special_not_alnum _ hs
        simp only [substTok, hlt, if_true, hs, List.map_cons, List.map_nil, List.cons_append,
          List.nil_append]
        rw [parse_cons_esc _ _ _ (by decide) rfl h2 hlt h1, ih, hnb]
        cases ts.all (fun t => !t.bad) <;> simp [ParseRun.cons, asciiTok]
      · have hs' : special t.rune = false := by simpa using hs
        have h1 := isMeta_special _ hs'
        simp only [substTok, hlt, if_true, hs', Bool.false_eq_true, if_false, List.map_cons,
          List.map_nil, List.cons_append, List.nil_append]
        rw [parse_cons_plain _ _ h2 h1.2 h1.1, ih, hnb]
        cases ts.all (fun t => !t.bad) <;> simp [ParseRun.cons, asciiTok]
    · simp only [substTok, hlt, if_false, List.cons_append, List.nil_append]
      by_cases hb : t.bad = true
      · rw [parse_cons_bad _ _ hb]; simp [hb]
      · have hb' : t.bad = false := by simpa using hb
        have h5 : t.rune ≠ 0x5C := by omega
        have hm : isMeta t.rune = false := by simp [isMeta]; omega
        rw [parse_cons_plain _ _ hb' h5 hm, ih, hb']
        cases ts.all (fun t => !t.bad) <;> simp [ParseRun.cons]

theorem quoteMeta_runes (c : Str) :
    runes (QuoteMeta c) =
      (runes c).flatMap (substTok (fun b => if special b then [0x5C, b] else [b])) := by
  unfold QuoteMeta
  apply runes_flatMap
  · intro b hb
    have : special b = false := by
      cases h : special b
      · rfl
      · have := special_lt b h; omega
    simp [this]
  · intro b hb
    by_cases hs : special b = true
    · simp [hs]; exact hb
    · simp [hs]; exact hb

/-- What the parser makes of a quoted challenge: its runes, each a literal, when
the challenge is valid UTF-8, and the error `ErrInvalidUTF8` when it is not. -/
theorem parse_quoteMeta (c : Str) :
    parseLiteralRun (runes (QuoteMeta c)) =
      if ValidString c then .literals ((runes c).map Tok.rune) else .invalidUTF8 := by
  rw [quoteMeta_runes, parse_quoted]; rfl

theorem mustCompile_quoteMeta (tbl : Nat → Nat) (c : Str) :
    MustCompile tbl (QuoteMeta c) =
      if Accepted c then .ret (patternNodes tbl ((runes c).map Tok.rune)) else .panic := by
  unfold MustCompile Accepted
  rw [parse_quoteMeta]
  by_cases hv : ValidString c = true
  · by_cases hn : fixedRunes + (runes c).length ≤ maxRunes
    · have : ¬ fixedRunes + ((runes c).map Tok.rune).length > maxRunes := by
        rw [List.length_map]; omega
      simp [hv, hn, this]
    · have : fixedRunes + ((runes c).map Tok.rune).length > maxRunes := by
        rw [List.length_map]; omega
      simp [hv, hn, this]
  · simp [hv]

theorem accepted_iff (c : Str) :
    Accepted c = true ↔ ValidString c = true ∧ fixedRunes + (runes c).length ≤ maxRunes := by
  simp [Accepted]

/-- The decoder reads back what `encodeRune` writes, for every Unicode scalar value. -/
theorem decode_encode (n : Nat) (hn : n < 0xD800 ∨ (0xDFFF < n ∧ n < 0x110000)) (rest : Str) :
    DecodeRuneInString (encodeRune n ++ rest) = (n, (encodeRune n).length) := by
  unfold encodeRune
  split_ifs with h1 h2 h3
  · simp [DecodeRuneInString, h1]
  · have hlt : ¬ (0xC0 + n / 64 < 0x80) := by omega
    simp only [List.cons_append, List.nil_append, DecodeRuneInString, hlt, if_false]
    rcases first_cases (0xC0 + n / 64) with ⟨hb, hf⟩ | ⟨hb, hf⟩ | ⟨hb, hf⟩ | ⟨hb, hf⟩ | ⟨hb, hf⟩ |
      ⟨hb, hf⟩ | ⟨hb, hf⟩ | ⟨hb, hf⟩ <;> first | omega | skip
    simp only [hf, decode2]
    simp
    split_ifs <;> first | omega | exact Prod.ext (by show _ = n; omega) rfl
  · have hlt : ¬ (0xE0 + n / 4096 < 0x80) := by omega
    simp only [List.cons_append, List.nil_append, DecodeRuneInString, hlt, if_false]
    rcases first_cases (0xE0 + n / 4096) with ⟨hb, hf⟩ | ⟨hb, hf⟩ | ⟨hb, hf⟩ | ⟨hb, hf⟩ |
      ⟨hb, hf⟩ | ⟨hb, hf⟩ | ⟨hb, hf⟩ | ⟨hb, hf⟩ <;> first | omega | skip
    all_goals
      simp only [hf, decode2, decode3, isCont]
      simp
      split_ifs <;> first | omega | exact Prod.ext (by show _ = n; omega) rfl
  · have hlt : ¬ (0xF0 + n / 262144 < 0x80) := by omega
    simp only [List.cons_append, List.nil_append, DecodeRuneInString, hlt, if_false]
    rcases first_cases (0xF0 + n / 262144) with ⟨hb, hf⟩ | ⟨hb, hf⟩ | ⟨hb, hf⟩ | ⟨hb, hf⟩ |
      ⟨hb, hf⟩ | ⟨hb, hf⟩ | ⟨hb, hf⟩ | ⟨hb, hf⟩ <;> first | omega | skip
    all_goals
      simp only [hf, decode2, decode3, decode4, isCont]
      simp
      split_ifs <;> first | omega | exact Prod.ext (by show _ = n; omega) rfl

/-- Decoding loses nothing: the decoding steps of a string cover its bytes, in order. -/
theorem bytesOf_runes (s : Str) : bytesOf (runes s) = s := by
  generalize h : s.length = n
  induction n using Nat.strong_induction_on generalizing s with
  | _ n ih =>
    cases s with
    | nil => rfl
    | cons b0 r =>
      have h3 := decode_size_pos b0 r
      rw [runes_cons]
      simp only [bytesOf, List.flatMap_cons] at ih ⊢
      rw [ih _ (by subst h; simp only [List.length_drop, List.length_cons]; omega) _ rfl]
      exact List.take_append_drop _ _

theorem pushAll_nil (cap : Bool) (r : MatchRes) : pushAll cap [] r = r := by
  cases cap <;> simp [pushAll]

theorem push_pushAll (cap : Bool) (t : Tok) (xs : List Tok) (r : MatchRes) :
    (pushAll cap xs r).push cap t = pushAll cap (t :: xs) r := by
  cases cap <;> simp [pushAll, MatchRes.push]

theorem push_eq_pushAll (cap : Bool) (t : Tok) (r : MatchRes) :
    r.push cap t = pushAll cap [t] r := by
  cases cap <;> simp [pushAll, MatchRes.push]

theorem pushAll_append (cap : Bool) (xs ys : List Tok) (r : MatchRes) :
    pushAll cap xs (pushAll cap ys r) = pushAll cap (xs ++ ys) r := by
  cases cap <;> simp [pushAll]

theorem oneStep_some {p : Nat → Bool} {cap : Bool} {k : List Tok → Option MatchRes}
    {ts : List Tok} {r : MatchRes} (h : oneStep p cap k ts = some r) :
    ∃ t ts2 r2, ts = t :: ts2 ∧ p t.rune = true ∧ k ts2 = some r2 ∧ r = pushAll cap [t] r2 := by
  cases ts with
  | nil => simp [oneStep] at h
  | cons t ts2 =>
    simp only [oneStep] at h
    split_ifs at h with hp
    cases hk : k ts2 with
    | none => simp [hk] at h
    | some r2 =>
      simp [hk] at h
      exact ⟨t, ts2, r2, rfl, hp, hk, by rw [← h, push_eq_pushAll]⟩

theorem starG_some {p : Nat → Bool} {cap : Bool} {k : List Tok → Option MatchRes}
    {ts : List Tok} {r : MatchRes} (h : starG p cap k ts = some r) :
    ∃ xs ys r2, ts = xs ++ ys ∧ (∀ t ∈ xs, p t.rune = true) ∧ k ys = some r2 ∧
      r = pushAll cap xs r2 ∧
      (∀ t ys2, ys = t :: ys2 → p t.rune = true → starG p cap k ys2 = none) := by
  induction ts generalizing r with
  | nil =>
    simp only [starG] at h
    exact ⟨[], [], r, rfl, by simp, h, (pushAll_nil _ _).symm, by simp⟩
  | cons t ts ih =>
    simp only [starG] at h
    by_cases hp : p t.rune = true
    · simp only [hp, if_true] at h
      cases hs : starG p cap k ts with
      | some r1 =>
        simp only [hs] at h
        obtain ⟨xs, ys, r2, h1, h2, h3, h4, h5⟩ := ih hs
        refine ⟨t :: xs, ys, r2, by simp [h1], ?_, h3, ?_, h5⟩
        · intro x hx
          rcases List.mem_cons.mp hx with rfl | hx
          · exact hp
          · exact h2 x hx
        · rw [← push_pushAll, ← h4]; exact (Option.some.inj h).symm
      | none =>
        simp only [hs] at h
        refine ⟨[], t :: ts, r, rfl, by simp, h, (pushAll_nil _ _).symm, ?_⟩
        intro t2 ys2 he _
        cases he
        exact hs
    · simp only [hp] at h
      refine ⟨[], t :: ts, r, rfl, by simp, h, (pushAll_nil _ _).symm, ?_⟩
      intro t2 ys2 he hp2
      cases he
      exact absurd hp2 hp

theorem starL_some {p : Nat → Bool} {cap : Bool} {k : List Tok → Option MatchRes}
    {ts : List Tok} {r : MatchRes} (h : starL p cap k ts = some r) :
    ∃ xs ys r2, ts = xs ++ ys ∧ (∀ t ∈ xs, p t.rune = true) ∧ k ys = some r2 ∧
      r = pushAll cap xs r2 := by
  induction ts generalizing r with
  | nil =>
    simp only [starL] at h
    exact ⟨[], [], r, rfl, by simp, h, (pushAll_nil _ _).symm⟩
  | cons t ts ih =>
    simp only [starL] at h
    cases hk : k (t :: ts) with
    | some r1 =>
      simp only [hk] at h
      exact ⟨[], t :: ts, r, rfl, by simp, by rw [hk, h], (pushAll_nil _ _).symm⟩
    | none =>
      simp only [hk] at h
      split_ifs at h with hp
      cases hs : starL p cap k ts with
      | none => simp [hs] at h
      | some r1 =>
        simp only [hs, Option.map_some'] at h
        obtain ⟨xs, ys, r2, h1, h2, h3, h4⟩ := ih hs
        refine ⟨t :: xs, ys, r2, by simp [h1], ?_, h3, ?_⟩
        · intro x hx
          rcases List.mem_cons.mp hx with rfl | hx
          · exact hp
          · exact h2 x hx
        · rw [← push_pushAll, ← h4]; exact (Option.some.inj h).symm

theorem matchNodes_nil (ts : List Tok) : matchNodes [] ts = some ⟨[], []⟩ := rfl

theorem matchNodes_one (p : Nat → Bool) (c : Bool) (ns : List Node) :
    matchNodes (⟨p, .one, c⟩ :: ns) = oneStep p c (matchNodes ns) := rfl

theorem matchNodes_star (p : Nat → Bool) (c : Bool) (ns : List Node) :
    matchNodes (⟨p, .star, c⟩ :: ns) = starG p c (matchNodes ns) := rfl

theorem matchNodes_lazyStar (p : Nat → Bool) (c : Bool) (ns : List Node) :
    matchNodes (⟨p, .lazyStar, c⟩ :: ns) = starL p c (matchNodes ns) := rfl

theorem matchNodes_plus (p : Nat → Bool) (c : Bool) (ns : List Node) :
    matchNodes (⟨p, .plus, c⟩ :: ns) = oneStep p c (starG p c (matchNodes ns)) := rfl

theorem oneStep_cons {p : Nat → Bool} (cap : Bool) (k : List Tok → Option MatchRes)
    {t : Tok} (ts : List Tok) (h : p t.rune = true) :
    oneStep p cap k (t :: ts) = (k ts).map (pushAll cap [t]) := by
  simp only [oneStep, h, if_true]
  cases k ts <;> simp [push_eq_pushAll]

theorem oneStep_fail {p : Nat → Bool} (cap : Bool) (k : List Tok → Option MatchRes)
    {t : Tok} (ts : List Tok) (h : p t.rune = false) :
    oneStep p cap k (t :: ts) = none := by
  simp [oneStep, h]

theorem starG_stop {p : Nat → Bool} (cap : Bool) (k : List Tok → Option MatchRes)
    {t : Tok} (ts : List Tok) (h : p t.rune = false) :
    starG p cap k (t :: ts) = k (t :: ts) := by
  simp [starG, h]

theorem starG_cons_true {p : Nat → Bool} (cap : Bool) (k : List Tok → Option MatchRes)
    {t : Tok} (ts : List Tok) (h : p t.rune = true) :
    starG p cap k (t :: ts) =
      match starG p cap k ts with
      | some r => some (r.push cap t)
      | none => k (t :: ts) := by
  simp [starG, h]

theorem starG_all {p : Nat → Bool} (cap : Bool) (k : List Tok → Option MatchRes)
    (xs ys : List Tok) (r0 : MatchRes) (hx : ∀ t ∈ xs, p t.rune = true)
    (h : starG p cap k ys = some r0) :
    starG p cap k (xs ++ ys) = some (pushAll cap xs r0) := by
  induction xs with
  | nil => simpa [pushAll_nil] using h
  | cons x xs ih =>
    have hx1 : p x.rune = true := hx x (by simp)
    have := ih (fun t ht => hx t (by simp [ht]))
    rw [List.cons_append, starG_cons_true _ _ _ hx1, this]
    simp only [push_pushAll]

theorem matchNodes_lits (tbl : Nat → Nat) (rs : List Nat) (ns : List Node) (toks ts : List Tok)
    (h : FoldMatch tbl rs toks) :
    matchNodes (rs.map (litNode tbl) ++ ns) (toks ++ ts) =
      (matchNodes ns ts).map (pushAll false toks) := by
  induction h with
  | nil =>
    cases hm : matchNodes ns ts <;> simp [hm, pushAll_nil]
  | @cons r t rs toks hrt _ ih =>
    simp only [List.map_cons, List.cons_append, litNode]
    rw [matchNodes_one, oneStep_cons _ _ _ hrt]
    simp only [litNode] at ih
    rw [ih]
    cases hm : matchNodes ns ts <;> simp [pushAll_append]

theorem matchNodes_lits_some (tbl : Nat → Nat) (rs : List Nat) (ns : List Node)
    (ts : List Tok) (r : MatchRes) (h : matchNodes (rs.map (litNode tbl) ++ ns) ts = some r) :
    ∃ toks rest r2, ts = toks ++ rest ∧ FoldMatch tbl rs toks ∧
      matchNodes ns rest = some r2 ∧ r = pushAll false toks r2 := by
  induction rs generalizing ts r with
  | nil =>
    exact ⟨[], ts, r, rfl, List.Forall₂.nil, by simpa using h, (pushAll_nil _ _).symm⟩
  | cons a rs ih =>
    simp only [List.map_cons, List.cons_append, litNode] at h
    rw [matchNodes_one] at h
    obtain ⟨t, ts2, r2, h1, h2, h3, h4⟩ := oneStep_some h
    obtain ⟨toks, rest, r3, h5, h6, h7, h8⟩ := ih ts2 r2 h3
    refine ⟨t :: toks, rest, r3, by simp [h1, h5], List.Forall₂.cons h2 h6, h7, ?_⟩
    rw [h4, h8, pushAll_append]; rfl

theorem foldEq_refl (tbl : Nat → Nat) (a : Nat) : foldEq tbl a a = true := by
  simp [foldEq]

theorem foldEq_punct (tbl : Nat → Nat) (a b : Nat) (ha : a < 0x80)
    (h1 : ¬ (0x41 ≤ a ∧ a ≤ 0x5A)) (h2 : ¬ (0x61 ≤ a ∧ a ≤ 0x7A)) :
    foldEq tbl a b = true ↔ b = a := by
  constructor
  · intro h
    simp only [foldEq, foldClass, decide_eq_true_eq] at h
    split_ifs at h <;> first | omega | (simp at h; omega)
  · rintro rfl; exact foldEq_refl _ _

theorem patternNodes_eq (tbl : Nat → Nat) (chal : List Nat) :
    patternNodes tbl chal =
      litNode tbl 0x5B :: ⟨reSpace, .star, false⟩ ::
        ((phrase ++ chal).map (litNode tbl) ++ restNodes tbl) := by
  simp [patternNodes, restNodes, anchorEndNodes, targetNodes, closeNodes]

theorem foldEq_5B (tbl : Nat → Nat) (b : Nat) : foldEq tbl 0x5B b = true ↔ b = 0x5B :=
  foldEq_punct tbl 0x5B b (by decide) (by decide) (by decide)

theorem foldEq_5D (tbl : Nat → Nat) (b : Nat) : foldEq tbl 0x5D b = true ↔ b = 0x5D :=
  foldEq_punct tbl 0x5D b (by decide) (by decide) (by decide)

theorem foldEq_28 (tbl : Nat → Nat) (b : Nat) : foldEq tbl 0x28 b = true ↔ b = 0x28 :=
  foldEq_punct tbl 0x28 b (by decide) (by decide) (by decide)

theorem foldEq_29 (tbl : Nat → Nat) (b : Nat) : foldEq tbl 0x29 b = true ↔ b = 0x29 :=
  foldEq_punct tbl 0x29 b (by decide) (by decide) (by decide)

theorem close_match (tbl : Nat → Nat) (rest : List Tok) :
    matchNodes (closeNodes tbl) (asciiTok 0x29 :: rest) = some ⟨[asciiTok 0x29], []⟩ := by
  simp only [closeNodes, litNode]
  rw [matchNodes_star, starG_stop _ _ _ (by decide), matchNodes_star,
    starG_stop _ _ _ (by decide), matchNodes_one,
    oneStep_cons _ _ _ ((foldEq_29 tbl _).mpr rfl)]
  simp [matchNodes_nil, pushAll]

theorem target_match (tbl : Nat → Nat) (u : Tok) (us rest : List Tok)
    (hu : ∀ t ∈ u :: us, targetRune t.rune = true) :
    matchNodes (targetNodes tbl) (u :: us ++ asciiTok 0x29 :: rest) =
      some ⟨u :: us ++ [asciiTok 0x29], u :: us⟩ := by
  simp only [targetNodes]
  rw [matchNodes_plus, List.cons_append, oneStep_cons _ _ _ (hu u (by simp))]
  have h1 : starG targetRune true (matchNodes (closeNodes tbl)) (asciiTok 0x29 :: rest) =
      some ⟨[asciiTok 0x29], []⟩ := by
    rw [starG_stop _ _ _ (by decide), close_match]
  rw [starG_all _ _ us _ _ (fun t ht => hu t (by simp [ht])) h1]
  simp [pushAll]

theorem anchorEnd_match (tbl : Nat → Nat) (u : Tok) (us rest : List Tok)
    (hu : ∀ t ∈ u :: us, targetRune t.rune = true) (hs : reSpace u.rune = false) :
    matchNodes (anchorEndNodes tbl)
        (asciiTok 0x5D :: asciiTok 0x28 :: (u :: us ++ asciiTok 0x29 :: rest)) =
      some ⟨asciiTok 0x5D :: asciiTok 0x28 :: (u :: us ++ [asciiTok 0x29]), u :: us⟩ := by
  simp only [anchorEndNodes, litNode, List.cons_append, List.nil_append]
  rw [matchNodes_star, starG_stop _ _ _ (by decide), matchNodes_one,
    oneStep_cons _ _ _ ((foldEq_5D tbl _).mpr rfl), matchNodes_one,
    oneStep_cons _ _ _ ((foldEq_28 tbl _).mpr rfl), matchNodes_star,
    starG_stop _ _ _ hs]
  have := target_match tbl u us rest hu
  simp only [List.cons_append] at this
  rw [this]
  simp [pushAll]

theorem anchorEnd_step (tbl : Nat → Nat) (x : Tok) (zs : List Tok) (hx : x.rune ≠ 0x5D) :
    matchNodes (anchorEndNodes tbl) (x :: zs) =
      if reSpace x.rune then (matchNodes (anchorEndNodes tbl) zs).map (pushAll false [x])
      else none := by
  have hf : foldEq tbl 0x5D x.rune = false := by
    cases h : foldEq tbl 0x5D x.rune
    · rfl
    · exact absurd ((foldEq_5D tbl _).mp h) hx
  simp only [anchorEndNodes, litNode, List.cons_append, List.nil_append]
  rw [matchNodes_star]
  by_cases hs : reSpace x.rune = true
  · rw [starG_cons_true _ _ _ hs]
    simp only [hs, if_true]
    cases hz : starG reSpace false
        (matchNodes (⟨foldEq tbl 0x5D, .one, false⟩ :: ⟨foldEq tbl 0x28, .one, false⟩ ::
          ⟨reSpace, .star, false⟩ :: targetNodes tbl)) zs with
    | some r => simp [push_eq_pushAll]
    | none =>
      simp only []
      rw [matchNodes_one, oneStep_fail _ _ _ hf]; rfl
  · have hs' : reSpace x.rune = false := by simpa using hs
    rw [starG_stop _ _ _ hs', matchNodes_one, oneStep_fail _ _ _ hf]
    simp [hs']

theorem anchorEnd_unique (tbl : Nat → Nat) (ts ys : List Tok) (r0 r : MatchRes)
    (ht : ∀ t ∈ ts, t.rune ≠ 0x5D) (h0 : matchNodes (anchorEndNodes tbl) ys = some r0)
    (h : matchNodes (anchorEndNodes tbl) (ts ++ ys) = some r) : r = pushAll false ts r0 := by
  induction ts generalizing r with
  | nil =>
    simp only [List.nil_append, h0] at h
    rw [pushAll_nil]; exact (Option.some.inj h).symm
  | cons x ts ih =>
    rw [List.cons_append, anchorEnd_step tbl x _ (ht x (by simp))] at h
    split_ifs at h with hs
    cases hm : matchNodes (anchorEndNodes tbl) (ts ++ ys) with
    | none => simp [hm] at h
    | some r1 =>
      have := ih r1 (fun t h => ht t (by simp [h])) hm
      simp only [hm, Option.map_some'] at h
      rw [← Option.some.inj h, this, pushAll_append]; rfl

theorem starL_of_some {p : Nat → Bool} (cap : Bool) {k : List Tok → Option MatchRes}
    {ts : List Tok} {r : MatchRes} (h : k ts = some r) : starL p cap k ts = some r := by
  cases ts <;> simp [starL, h]

theorem rest_match (tbl : Nat → Nat) (ts ys : List Tok) (r0 : MatchRes)
    (ht : ∀ t ∈ ts, t.rune ≠ 10 ∧ t.rune ≠ 0x5D)
    (h0 : matchNodes (anchorEndNodes tbl) ys = some r0) :
    matchNodes (restNodes tbl) (ts ++ ys) = some (pushAll false ts r0) := by
  simp only [restNodes]
  rw [matchNodes_lazyStar]
  induction ts with
  | nil => rw [pushAll_nil]; exact starL_of_some _ h0
  | cons x ts ih =>
    have ih' := ih (fun t h => ht t (by simp [h]))
    cases hm : matchNodes (anchorEndNodes tbl) (x :: ts ++ ys) with
    | some r =>
      rw [starL_of_some _ hm]
      rw [anchorEnd_unique tbl (x :: ts) ys r0 r (fun t h => (ht t h).2) h0 hm]
    | none =>
      have hp : (fun r => r != 10) x.rune = true := by
        simpa using (ht x (by simp)).1
      simp only [List.cons_append] at hm ⊢
      simp only [starL, hm]
      rw [if_pos hp, ih']
      simp [push_pushAll]

theorem foldEq_b_not_space (tbl : Nat → Nat) (r : Nat) (h : foldEq tbl 0x62 r = true) :
    reSpace r = false := by
  simp only [foldEq, foldClass, decide_eq_true_eq] at h
  have : r = 0x62 ∨ r = 0x42 := by
    split_ifs at h <;> first | omega | (simp at h <;> omega)
  rcases this with rfl | rfl <;> decide

theorem phrase_eq : phrase = 0x62 :: (lit "uild your own ") := by decide

theorem pattern_no_match (tbl : Nat → Nat) (chal : List Nat) (t : Tok) (ts : List Tok)
    (h : t.rune ≠ 0x5B) : matchNodes (patternNodes tbl chal) (t :: ts) = none := by
  rw [patternNodes_eq]
  simp only [litNode]
  rw [matchNodes_one, oneStep_fail]
  cases hf : foldEq tbl 0x5B t.rune
  · rfl
  · exact absurd ((foldEq_5B tbl _).mp hf) h

theorem pattern_no_match_nil (tbl : Nat → Nat) (chal : List Nat) :
    matchNodes (patternNodes tbl chal) [] = none := by
  rw [patternNodes_eq]; rfl

theorem pattern_whole_ne (tbl : Nat → Nat) (chal : List Nat) (ts : List Tok) (r : MatchRes)
    (h : matchNodes (patternNodes tbl chal) ts = some r) : r.whole.length ≠ 0 := by
  rw [patternNodes_eq] at h
  simp only [litNode] at h
  rw [matchNodes_one] at h
  obtain ⟨t, ts2, r2, _, _, _, h4⟩ := oneStep_some h
  rw [h4]; simp [pushAll]

theorem findAll_flag (tbl : Nat → Nat) (chal : List Nat) (ts : List Tok) (b : Bool) :
    findAllAux (patternNodes tbl chal) ts 0 b = findAllAux (patternNodes tbl chal) ts 0 false := by
  cases ts with
  | nil => simp [findAllAux, pattern_no_match_nil]
  | cons t ts =>
    simp only [findAllAux]
    cases hm : matchNodes (patternNodes tbl chal) (t :: ts) with
    | none => rfl
    | some r => simp [pattern_whole_ne tbl chal _ r hm]

theorem findAll_plain (tbl : Nat → Nat) (chal : List Nat) (xs ys : List Tok) (b : Bool)
    (h : ∀ t ∈ xs, t.rune ≠ 0x5B) :
    findAllAux (patternNodes tbl chal) (xs ++ ys) 0 b =
      findAllAux (patternNodes tbl chal) ys 0 false := by
  induction xs generalizing b with
  | nil => exact findAll_flag tbl chal ys b
  | cons x xs ih =>
    simp only [List.cons_append, findAllAux, pattern_no_match tbl chal x _ (h x (by simp))]
    exact ih false (fun t ht => h t (by simp [ht]))

theorem findAll_skip (tbl : Nat → Nat) (chal : List Nat) (xs ys : List Tok) (b : Bool) :
    findAllAux (patternNodes tbl chal) (xs ++ ys) xs.length b =
      findAllAux (patternNodes tbl chal) ys 0 false := by
  induction xs generalizing b with
  | nil => exact findAll_flag tbl chal ys b
  | cons x xs ih =>
    simp only [List.cons_append, List.length_cons, findAllAux]
    exact ih true

theorem findAll_match (tbl : Nat → Nat) (chal : List Nat) (w : Tok) (ws ys : List Tok)
    (g : List Tok) (b : Bool)
    (h : matchNodes (patternNodes tbl chal) (w :: ws ++ ys) = some ⟨w :: ws, g⟩) :
    findAllAux (patternNodes tbl chal) (w :: ws ++ ys) 0 b =
      ⟨w :: ws, g⟩ :: findAllAux (patternNodes tbl chal) ys 0 false := by
  simp only [List.cons_append] at h ⊢
  simp only [findAllAux, h, List.length_cons, Nat.add_one_ne_zero, if_false,
    Nat.add_sub_cancel]
  rw [findAll_skip]

theorem line_match (tbl : Nat → Nat) (chal : List Nat) (pc ts : List Tok) (u : Tok)
    (us rest : List Tok) (hpc : FoldMatch tbl (phrase ++ chal) pc)
    (ht : ∀ t ∈ ts, t.rune ≠ 10 ∧ t.rune ≠ 0x5D)
    (hu : ∀ t ∈ u :: us, targetRune t.rune = true) (hs : reSpace u.rune = false) :
    matchNodes (patternNodes tbl chal)
        (asciiTok 0x5B :: (pc ++ (ts ++ asciiTok 0x5D :: asciiTok 0x28 ::
          (u :: us ++ asciiTok 0x29 :: rest)))) =
      some ⟨asciiTok 0x5B :: (pc ++ (ts ++ asciiTok 0x5D :: asciiTok 0x28 ::
          (u :: us ++ [asciiTok 0x29]))), u :: us⟩ := by
  rw [patternNodes_eq]
  simp only [litNode]
  rw [matchNodes_one, oneStep_cons _ _ _ ((foldEq_5B tbl _).mpr rfl), matchNodes_star]
  have hne : ∃ p0 ps, pc = p0 :: ps ∧ reSpace p0.rune = false := by
    rw [phrase_eq] at hpc
    cases hpc with
    | cons h1 _ => exact ⟨_, _, rfl, foldEq_b_not_space tbl _ h1⟩
  obtain ⟨p0, ps, hp, hp0⟩ := hne
  have h1 := matchNodes_lits tbl (phrase ++ chal) (restNodes tbl) pc
    (ts ++ asciiTok 0x5D :: asciiTok 0x28 :: (u :: us ++ asciiTok 0x29 :: rest)) hpc
  have h2 := rest_match tbl ts _ _ ht (anchorEnd_match tbl u us rest hu hs)
  rw [h2] at h1
  subst hp
  rw [List.cons_append, starG_stop _ _ _ hp0]
  rw [List.cons_append] at h1
  rw [h1]
  simp [pushAll]

theorem dropWhile_none {α : Type} (p : α → Bool) (l : List α) (h : ∀ x ∈ l, p x = false) :
    l.dropWhile p = l := by
  cases l with
  | nil => rfl
  | cons a l => simp [List.dropWhile, h a (by simp)]

theorem foldMatch_append (tbl : Nat → Nat) (r1 r2 : List Nat) (t1 t2 : List Tok)
    (h1 : FoldMatch tbl r1 t1) (h2 : FoldMatch tbl r2 t2) :
    FoldMatch tbl (r1 ++ r2) (t1 ++ t2) := by
  induction h1 with
  | nil => exact h2
  | cons h _ ih => exact List.Forall₂.cons h ih

theorem appendTarget_foldl (ms : List MatchRes) (acc : List Str) :
    (ms.map (fun r => [bytesOf r.whole, bytesOf r.grp])).foldl appendTarget acc =
      acc ++ ms.map (fun r => TrimSpace (bytesOf r.grp)) := by
  induction ms generalizing acc with
  | nil => simp
  | cons m ms ih =>
    simp only [List.map_cons, List.foldl_cons]
    rw [show appendTarget acc [bytesOf m.whole, bytesOf m.grp] =
      acc ++ [TrimSpace (bytesOf m.grp)] from by simp [appendTarget]]
    rw [ih]; simp

theorem extract_eq (tbl : Nat → Nat) (content challenge : Str)
    (hv : Accepted challenge = true) :
    extractMarkdownLinkHrefByText tbl content challenge =
      if (findAllAux (patternNodes tbl ((runes challenge).map Tok.rune)) (runes content)
          0 false).length = 0 then .ret (none, none)
      else .ret (some ((findAllAux (patternNodes tbl ((runes challenge).map Tok.rune))
        (runes content) 0 false).map (fun r => TrimSpace (bytesOf r.grp))), none) := by
  unfold extractMarkdownLinkHrefByText
  rw [mustCompile_quoteMeta, hv]
  simp only [if_true, FindAllStringSubmatch, List.length_map]
  rw [appendTarget_foldl]
  simp

theorem dropWhile_all {α : Type} (p : α → Bool) (l : List α) (h : ∀ x ∈ l, p x = true) :
    l.dropWhile p = [] := by
  induction l with
  | nil => rfl
  | cons a l ih =>
    simp only [List.dropWhile, h a (by simp)]
    exact ih (fun x hx => h x (by simp [hx]))

theorem trimSpace_blank (c : Str) (h : ∀ t ∈ runes c, isSpace t.rune = true) :
    TrimSpace c = [] := by
  unfold TrimSpace
  rw [dropWhile_all _ _ h]; rfl

/-- Claim C2. When the challenge is empty or holds white space only, `search`
returns an error and an `Output` without solutions, and it does nothing to the
outside: no request is sent, whatever the network is. -/
theorem search_rejects_blank_challenge (tbl : Nat → Nat) (net : Net) (c : Str)
    (h : ∀ t ∈ runes c, isSpace t.rune = true) :
    search tbl net ⟨c⟩ =
      (.ret ⟨none, ⟨none⟩, some ⟨lit "Coding Challenge name cannot be empty"⟩⟩, []) := by
  unfold search
  simp [trimSpace_blank c h]

/-- Claim C2 on a challenge of a space, a tab and a newline, with a network that
would answer. -/
theorem search_rejects_blank_challenge_witness :
    search id (constNet (.ok ⟨200, lit "200 OK", ⟨lit "[Build your own wc](u)", none⟩⟩))
        ⟨lit " \t\n"⟩ =
      (.ret ⟨none, ⟨none⟩, some ⟨lit "Coding Challenge name cannot be empty"⟩⟩, []) :=
  search_rejects_blank_challenge id _ (lit " \t\n") (by decide)

theorem fetchRaw_events (net : Net) (url : Str) :
    ∀ ev ∈ (fetchRaw net url).2, ev = .get url := by
  unfold fetchRaw
  intro ev hev
  split at hev
  · simp at hev
  · split at hev
    · simpa using hev
    · split at hev
      · simpa using hev
      · split at hev <;> simpa using hev

/-- Claim C8. On a response whose status is not 200 OK, `fetchRaw` returns the empty
document and an error whose message holds the URL, the status and the first 8192
bytes of the body at most; another response with the same status and the same body
bytes, whether reading its body fails or not, gives the same result. -/
theorem fetchRaw_status_error_bounded (net : Net) (url : Str) (resp : Response)
    (hreq : net.newRequest url = none) (hrt : net.roundTrip url = .ok resp)
    (hst : resp.StatusCode ≠ StatusOK) :
    (fetchRaw net url).1 =
      ([], some ⟨lit "GET " ++ url ++ lit ": status " ++ resp.Status ++ lit ": " ++
        resp.Body.data.take 8192⟩) ∧
    (resp.Body.data.take 8192).length ≤ 8192 ∧
    (∀ (net2 : Net) (resp2 : Response), net2.newRequest url = none →
      net2.roundTrip url = .ok resp2 → resp2.StatusCode = resp.StatusCode →
      resp2.Status = resp.Status → resp2.Body.data = resp.Body.data →
      fetchRaw net2 url = fetchRaw net url) := by
  have key : ∀ (n : Net) (rs : Response), n.newRequest url = none → n.roundTrip url = .ok rs →
      rs.StatusCode ≠ StatusOK →
      fetchRaw n url = (([], some ⟨lit "GET " ++ url ++ lit ": status " ++ rs.Status ++
        lit ": " ++ rs.Body.data.take 8192⟩), [.get url]) := by
    intro n rs h1 h2 h3
    unfold fetchRaw
    simp only [h1, h2, h3, ne_eq, not_false_eq_true, if_true, ReadAll, LimitReader]
    rfl
  refine ⟨by rw [key net resp hreq hrt hst], ?_, ?_⟩
  · simp [List.length_take]
  · intro net2 resp2 h1 h2 h3 h4 h5
    rw [key net resp hreq hrt hst, key net2 resp2 h1 h2 (by rw [h3]; exact hst), h4, h5]

/-- Claim C8 on a 404 response whose body cannot be read to its end. -/
theorem fetchRaw_status_error_bounded_witness :
    (fetchRaw (constNet (.ok ⟨404, lit "404 Not Found", ⟨lit "gone", some ⟨lit "reset"⟩⟩⟩))
        (lit "http://h/x")).1 =
      ([], some ⟨lit "GET " ++ lit "http://h/x" ++ lit ": status " ++ lit "404 Not Found" ++
        lit ": " ++ (lit "gone").take 8192⟩) :=
  (fetchRaw_status_error_bounded
    (constNet (.ok ⟨404, lit "404 Not Found", ⟨lit "gone", some ⟨lit "reset"⟩⟩⟩))
    (lit "http://h/x") ⟨404, lit "404 Not Found", ⟨lit "gone", some ⟨lit "reset"⟩⟩⟩
    rfl rfl (by decide)).1

/-- Claim C6 fails as stated: on a document without any match the search succeeds
with a non-nil empty slice, and the JSON encoding of that `Output` has no field
`solutions`. -/
theorem search_no_match_omits_field :
    (search id (constNet (.ok ⟨200, lit "200 OK", ⟨lit "# Shared Solutions", none⟩⟩))
        ⟨lit "wc"⟩).1 = .ret ⟨none, ⟨some []⟩, none⟩ ∧
    ¬ ∃ v, ("solutions", v) ∈ marshalOutput ⟨some []⟩ := by
  refine ⟨by decide, ?_⟩
  simp [marshalOutput]

/-- Claim C6, amended. When a search succeeds on a document in which the extractor
finds no match, the `Output` holds a slice that is not nil and is empty, and the
JSON encoding of the `Output` leaves the field `solutions` out. -/
theorem search_no_match_output (tbl : Nat → Nat) (net : Net) (c d : Str)
    (hc : TrimSpace c ≠ []) (hf : (fetchRaw net sharedSolutionsRepo).1 = (d, none))
    (hx : extractMarkdownLinkHrefByText tbl d c = .ret (none, none)) :
    (search tbl net ⟨c⟩).1 = .ret ⟨none, ⟨some []⟩, none⟩ ∧
    marshalOutput ⟨some []⟩ = [] := by
  refine ⟨?_, rfl⟩
  unfold search
  simp only [hc, if_false]
  rcases hfr : fetchRaw net sharedSolutionsRepo with ⟨⟨d2, e2⟩, evs⟩
  rw [hfr] at hf
  cases hf
  simp only [hx]
  rfl

/-- Claim C6, amended, on a document that holds no link at all. -/
theorem search_no_match_output_witness :
    (search id (constNet (.ok ⟨200, lit "200 OK", ⟨lit "no links here", none⟩⟩))
        ⟨lit "grep"⟩).1 = .ret ⟨none, ⟨some []⟩, none⟩ ∧
    marshalOutput ⟨some []⟩ = [] :=
  search_no_match_output id (constNet (.ok ⟨200, lit "200 OK", ⟨lit "no links here", none⟩⟩))
    (lit "grep") (lit "no links here") (by decide) (by decide) (by decide)

theorem findAll_sound (re : List Node) (ts : List Tok) (k : Nat) (b : Bool) (r : MatchRes)
    (h : r ∈ findAllAux re ts k b) :
    ∃ pre post, ts = pre ++ post ∧ matchNodes re post = some r := by
  induction ts generalizing k b with
  | nil =>
    simp only [findAllAux] at h
    cases hm : matchNodes re [] with
    | none => simp [hm] at h
    | some r2 =>
      simp only [hm] at h
      split_ifs at h <;> first
        | (simp at h; done)
        | (simp only [List.mem_singleton] at h; exact ⟨[], [], rfl, by rw [hm, h]⟩)
  | cons t ts ih =>
    cases k with
    | succ k =>
      simp only [findAllAux] at h
      obtain ⟨pre, post, h1, h2⟩ := ih k true h
      exact ⟨t :: pre, post, by simp [h1], h2⟩
    | zero =>
      simp only [findAllAux] at h
      cases hm : matchNodes re (t :: ts) with
      | none =>
        simp only [hm] at h
        obtain ⟨pre, post, h1, h2⟩ := ih 0 false h
        exact ⟨t :: pre, post, by simp [h1], h2⟩
      | some r2 =>
        simp only [hm] at h
        have hrec : ∀ k2 b2, r ∈ findAllAux re ts k2 b2 →
            ∃ pre post, t :: ts = pre ++ post ∧ matchNodes re post = some r := by
          intro k2 b2 hr
          obtain ⟨pre, post, h1, h2⟩ := ih k2 b2 hr
          exact ⟨t :: pre, post, by simp [h1], h2⟩
        have hhere : r = r2 → ∃ pre post, t :: ts = pre ++ post ∧ matchNodes re post = some r := by
          intro he
          exact ⟨[], t :: ts, rfl, by rw [hm, he]⟩
        split_ifs at h
        · exact hrec _ _ h
        · rcases List.mem_cons.mp h with h | h
          · exact hhere h
          · exact hrec _ _ h
        · rcases List.mem_cons.mp h with h | h
          · exact hhere h
          · exact hrec _ _ h

theorem close_some (tbl : Nat → Nat) (zs : List Tok)
    (h : ∃ t ∈ zs, t.rune = 0x29) :
    ∃ r, starG (fun r => r != 0x29) false
      (oneStep (foldEq tbl 0x29) false (matchNodes [])) zs = some r := by
  induction zs with
  | nil => simp at h
  | cons z zs ih =>
    by_cases hz : z.rune = 0x29
    · have hp : (fun r => r != 0x29) z.rune = false := by simp [hz]
      rw [starG_stop _ _ _ hp, oneStep_cons _ _ _ ((foldEq_29 tbl _).mpr hz)]
      simp [matchNodes_nil]
    · have hp : (fun r => r != 0x29) z.rune = true := by simpa using hz
      have : ∃ t ∈ zs, t.rune = 0x29 := by
        obtain ⟨t, ht, h29⟩ := h
        rcases List.mem_cons.mp ht with rfl | ht
        · exact absurd h29 hz
        · exact ⟨t, ht, h29⟩
      obtain ⟨r, hr⟩ := ih this
      rw [starG_cons_true _ _ _ hp, hr]
      exact ⟨_, rfl⟩

theorem starG_some_of_cont {p : Nat → Bool} (cap : Bool) (k : List Tok → Option MatchRes)
    (zs : List Tok) (hk : ∀ ys, (∃ t ∈ ys, t.rune = 0x29) → ∃ r, k ys = some r)
    (h : ∃ t ∈ zs, t.rune = 0x29) : ∃ r, starG p cap k zs = some r := by
  cases zs with
  | nil => simp at h
  | cons z zs =>
    by_cases hp : p z.rune = true
    · rw [starG_cons_true _ _ _ hp]
      cases hs : starG p cap k zs with
      | some r => exact ⟨_, rfl⟩
      | none => exact hk _ h
    · have hp2 : p z.rune = false := by simpa using hp
      rw [starG_stop _ _ _ hp2]
      exact hk _ h

theorem closeNodes_some (tbl : Nat → Nat) (zs : List Tok) (h : ∃ t ∈ zs, t.rune = 0x29) :
    ∃ r, matchNodes (closeNodes tbl) zs = some r := by
  simp only [closeNodes, litNode]
  rw [matchNodes_star, matchNodes_star, matchNodes_one]
  exact starG_some_of_cont _ _ _ (fun ys hy => close_some tbl ys hy) h

theorem target_tail_some (tbl : Nat → Nat) (zs : List Tok) (h : ∃ t ∈ zs, t.rune = 0x29) :
    ∃ r, starG targetRune true (matchNodes (closeNodes tbl)) zs = some r :=
  starG_some_of_cont _ _ _ (fun ys hy => closeNodes_some tbl ys hy) h

theorem reSpace_ne_29 (r : Nat) (h : reSpace r = true) : r ≠ 0x29 := by
  simp only [reSpace, Bool.or_eq_true, beq_iff_eq] at h
  omega

theorem pattern_sound (tbl : Nat → Nat) (chal : List Nat) (post : List Tok) (r : MatchRes)
    (h : matchNodes (patternNodes tbl chal) post = some r) :
    LinkMatch tbl chal r.whole r.grp ∧ ∃ rest, post = r.whole ++ rest := by
  rw [patternNodes_eq] at h
  simp only [litNode] at h
  rw [matchNodes_one] at h
  obtain ⟨lb, p1, r1, e1, hlb, h1, hr1⟩ := oneStep_some h
  rw [matchNodes_star] at h1
  obtain ⟨ws, p2, r2, e2, hws, h2, hr2, _⟩ := starG_some h1
  obtain ⟨pc, p3, r3, e3, hpc, h3, hr3⟩ := matchNodes_lits_some tbl _ _ _ _ h2
  simp only [restNodes] at h3
  rw [matchNodes_lazyStar] at h3
  obtain ⟨mid, p4, r4, e4, hmid, h4, hr4⟩ := starL_some h3
  simp only [anchorEndNodes, litNode, List.cons_append, List.nil_append] at h4
  rw [matchNodes_star] at h4
  obtain ⟨ws1, p5, r5, e5, hws1, h5, hr5, _⟩ := starG_some h4
  rw [matchNodes_one] at h5
  obtain ⟨rb, p6, r6, e6, hrb, h6, hr6⟩ := oneStep_some h5
  rw [matchNodes_one] at h6
  obtain ⟨lp, p7, r7, e7, hlp, h7, hr7⟩ := oneStep_some h6
  rw [matchNodes_star] at h7
  obtain ⟨ws2, p8, r8, e8, hws2, h8, hr8, _⟩ := starG_some h7
  simp only [targetNodes] at h8
  rw [matchNodes_plus] at h8
  obtain ⟨c0, p9, r9, e9, hc0, h9, hr9⟩ := oneStep_some h8
  obtain ⟨cs, p10, r10, e10, hcs, h10, hr10, hmax⟩ := starG_some h9
  have h10' := h10
  simp only [closeNodes, litNode] at h10
  rw [matchNodes_star] at h10
  obtain ⟨ws3, p11, r11, e11, hws3, h11, hr11, _⟩ := starG_some h10
  rw [matchNodes_star] at h11
  obtain ⟨tl, p12, r12, e12, htl, h12, hr12, _⟩ := starG_some h11
  rw [matchNodes_one] at h12
  obtain ⟨rp, p13, r13, e13, hrp, h13, hr13⟩ := oneStep_some h12
  rw [matchNodes_nil] at h13
  have hr13' : r13 = ⟨[], []⟩ := (Option.some.inj h13).symm
  have hwhole : r.whole = lb :: (ws ++ (pc ++ (mid ++ (ws1 ++ rb :: lp ::
      (ws2 ++ ((c0 :: cs) ++ ((ws3 ++ tl) ++ [rp]))))))) := by
    rw [hr1, hr2, hr3, hr4, hr5, hr6, hr7, hr8, hr9, hr10, hr11, hr12, hr13, hr13']
    simp [pushAll]
  have hgrp : r.grp = c0 :: cs := by
    rw [hr1, hr2, hr3, hr4, hr5, hr6, hr7, hr8, hr9, hr10, hr11, hr12, hr13, hr13']
    simp [pushAll]
  have hpost : post = r.whole ++ p13 := by
    rw [hwhole, e1, e2, e3, e4, e5, e6, e7, e8, e9, e10, e11, e12, e13]
    simp
  refine ⟨⟨lb, ws, pc, mid, ws1, rb, lp, ws2, ws3 ++ tl, rp, ?_, (foldEq_5B tbl _).mp hlb, hws,
    hpc, ?_, hws1, (foldEq_5D tbl _).mp hrb, (foldEq_28 tbl _).mp hlp, hws2, ?_, ?_, ?_, ?_,
    (foldEq_29 tbl _).mp hrp⟩, p13, hpost⟩
  · rw [hwhole, hgrp]
  · intro t ht
    simpa using hmid t ht
  · rw [hgrp]; simp
  · rw [hgrp]
    intro t ht
    rcases List.mem_cons.mp ht with rfl | ht
    · exact hc0
    · exact hcs t ht
  · intro t ht
    rcases List.mem_append.mp ht with ht | ht
    · exact reSpace_ne_29 _ (hws3 t ht)
    · simpa using htl t ht
  · intro t ht
    cases hT : targetRune t.rune with
    | false => rfl
    | true =>
      exfalso
      obtain ⟨tl2, htl2⟩ : ∃ tl2, ws3 ++ tl = t :: tl2 := by
        cases hx : ws3 ++ tl with
        | nil => rw [hx] at ht; simp at ht
        | cons a l =>
          rw [hx] at ht
          simp only [List.head?_cons, Option.some.injEq] at ht
          exact ⟨l, by rw [ht]⟩
      have hp10 : p10 = t :: (tl2 ++ rp :: p13) := by
        rw [e11, e12, e13, ← List.append_assoc, htl2]; rfl
      have hnone := hmax t _ hp10 hT
      obtain ⟨r0, hr0⟩ := target_tail_some tbl (tl2 ++ rp :: p13)
        ⟨rp, by simp, (foldEq_29 tbl _).mp hrp⟩
      rw [hnone] at hr0
      cases hr0

theorem extract_invalid (tbl : Nat → Nat) (content challenge : Str)
    (hv : Accepted challenge = false) :
    extractMarkdownLinkHrefByText tbl content challenge = .panic := by
  unfold extractMarkdownLinkHrefByText
  rw [mustCompile_quoteMeta, hv]
  rfl

theorem extract_some (tbl : Nat → Nat) (content challenge : Str) (l : List Str)
    (e : Option GoError)
    (h : extractMarkdownLinkHrefByText tbl content challenge = .ret (some l, e)) :
    Accepted challenge = true ∧
    l = (findAllAux (patternNodes tbl ((runes challenge).map Tok.rune)) (runes content)
      0 false).map (fun r => TrimSpace (bytesOf r.grp)) := by
  cases hv : Accepted challenge with
  | false => rw [extract_invalid tbl _ _ hv] at h; cases h
  | true =>
    refine ⟨rfl, ?_⟩
    rw [extract_eq tbl _ _ hv] at h
    split_ifs at h
    · cases h
    · cases h; rfl

theorem extract_target_match (tbl : Nat → Nat) (content challenge : Str) (l : List Str)
    (e : Option GoError) (target : Str)
    (h : extractMarkdownLinkHrefByText tbl content challenge = .ret (some l, e))
    (ht : target ∈ l) :
    ∃ pre whole cap post, runes content = pre ++ whole ++ post ∧
      LinkMatch tbl ((runes challenge).map Tok.rune) whole cap ∧
      target = TrimSpace (bytesOf cap) := by
  obtain ⟨_, hl⟩ := extract_some tbl content challenge l e h
  rw [hl] at ht
  obtain ⟨r, hr, rfl⟩ := List.mem_map.mp ht
  obtain ⟨pre, post, h1, h2⟩ := findAll_sound _ _ _ _ _ hr
  obtain ⟨h3, rest, h4⟩ := pattern_sound tbl _ _ _ h2
  exact ⟨pre, r.whole, r.grp, rest, by rw [h1, h4, List.append_assoc], h3, rfl⟩

theorem phrase_not_at_space (tbl : Nat → Nat) (chal : List Nat) (b : Nat) (s : Str)
    (hb : b = 0x20) :
    ¬ ∃ pc rest, runes (b :: s) = pc ++ rest ∧ FoldMatch tbl (phrase ++ chal) pc := by
  rintro ⟨pc, rest, h1, h2⟩
  rw [phrase_eq] at h2
  cases h2 with
  | @cons _ p0 _ ps hf _ =>
    have hsp := foldEq_b_not_space tbl _ hf
    subst hb
    rw [runes_cons_ascii _ _ (by decide)] at h1
    simp only [List.cons_append, List.cons.injEq] at h1
    rw [← h1.1] at hsp
    revert hsp
    decide

/-- Claim C9 fails as stated.  In the document `[ build your own x](u)` the link
matches the challenge "x" and its target is returned, yet its anchor text, the text
between the opening bracket and the first closing bracket, begins with a space and
not with the phrase: white space may stand in front of the phrase.  And in the
document `[build your own x](a\fb c)` the returned target holds a form feed, which
is white space: a target is cut at a space, tab, carriage return or newline only. -/
theorem extract_anchor_and_target_counterexample :
    (extractMarkdownLinkHrefByText id (lit "[ build your own x](u)") (lit "x") =
        .ret (some [lit "u"], none) ∧
      lit "[ build your own x](u)" = lit "[" ++ lit " build your own x" ++ lit "](u)" ∧
      0x5D ∉ lit " build your own x" ∧
      ¬ ∃ pc rest, runes (lit " build your own x") = pc ++ rest ∧
        FoldMatch id (phrase ++ (runes (lit "x")).map Tok.rune) pc) ∧
    (extractMarkdownLinkHrefByText id (lit "[build your own x](a\x0cb c)") (lit "x") =
        .ret (some [lit "a\x0cb"], none) ∧
      0x0C ∈ lit "a\x0cb" ∧ isSpace 0x0C = true) :=
  ⟨⟨by decide, by decide, by decide, phrase_not_at_space id _ 0x20 _ rfl⟩,
   by decide, by decide, by decide⟩

/-- Claim C9, amended. Every target `extractMarkdownLinkHrefByText` returns comes
from a place of the document of the shape `LinkMatch`: an opening bracket, optional
white space, the phrase "build your own " and the challenge, compared without regard
to case, then runes other than a newline, optional white space, a closing bracket
directly followed by an opening parenthesis, optional white space, and the capture:
the longest run of runes other than a closing parenthesis, space, tab, carriage
return and newline, which is not empty and after which a closing parenthesis comes
before any other one.  The target is the capture with Unicode white space trimmed
from both ends. -/
theorem extract_target_shape (tbl : Nat → Nat) (content challenge : Str) (l : List Str)
    (e : Option GoError) (target : Str)
    (h : extractMarkdownLinkHrefByText tbl content challenge = .ret (some l, e))
    (ht : target ∈ l) :
    ∃ pre whole cap post, runes content = pre ++ whole ++ post ∧
      LinkMatch tbl ((runes challenge).map Tok.rune) whole cap ∧
      target = TrimSpace (bytesOf cap) :=
  extract_target_match tbl content challenge l e target h ht

/-- Claim C9, amended, on a link with white space around the anchor text and the
target, and with a title. -/
theorem extract_target_shape_witness :
    ∃ pre whole cap post,
      runes (lit "see [ Build Your Own wc tool in Go ](  https://a.com/x \"t\") now") =
        pre ++ whole ++ post ∧
      LinkMatch id ((runes (lit "wc")).map Tok.rune) whole cap ∧
      lit "https://a.com/x" = TrimSpace (bytesOf cap) :=
  extract_target_shape id
    (lit "see [ Build Your Own wc tool in Go ](  https://a.com/x \"t\") now") (lit "wc")
    [lit "https://a.com/x"] none (lit "https://a.com/x") (by decide) (by decide)

/-- Claim C3. The challenge is matched as literal text.  The parser reads the quoted
challenge as the literal runes of the challenge, nothing else (an invalid byte apart,
which it rejects); a result that is not empty needs the document to hold the phrase
"build your own " directly followed by the challenge, up to case; and the challenge
"C++" matches the anchor text "Build your own C++ Parser". -/
theorem challenge_is_literal_text (tbl : Nat → Nat) (content challenge : Str)
    (hc : challenge ≠ []) :
    (parseLiteralRun (runes (QuoteMeta challenge)) =
      if ValidString challenge then .literals ((runes challenge).map Tok.rune)
      else .invalidUTF8) ∧
    (∀ l e, extractMarkdownLinkHrefByText tbl content challenge = .ret (some l, e) → l ≠ [] →
      ∃ pre pc post, runes content = pre ++ pc ++ post ∧
        FoldMatch tbl (phrase ++ (runes challenge).map Tok.rune) pc) ∧
    extractMarkdownLinkHrefByText id (lit "[Build your own C++ Parser](http://x)]") (lit "C++") =
      .ret (some [lit "http://x"], none) := by
  refine ⟨parse_quoteMeta challenge, ?_, by decide⟩
  intro l e h hl
  obtain ⟨target, ht⟩ := List.exists_mem_of_ne_nil l hl
  obtain ⟨pre, whole, cap, post, h1, h2, _⟩ :=
    extract_target_match tbl content challenge l e target h ht
  obtain ⟨lb, ws, pc, mid, ws1, rb, lp, ws2, title, rp, hw, _, _, hpc, _⟩ := h2
  refine ⟨pre ++ lb :: ws, pc,
    (mid ++ (ws1 ++ rb :: lp :: (ws2 ++ (cap ++ (title ++ [rp]))))) ++ post, ?_, hpc⟩
  rw [h1, hw]
  simp

/-- Claim C3 on the scenario of the specification: the challenge "C++". -/
theorem challenge_is_literal_text_witness :
    parseLiteralRun (runes (QuoteMeta (lit "C++"))) =
      (if ValidString (lit "C++") then .literals ((runes (lit "C++")).map Tok.rune)
       else .invalidUTF8) :=
  (challenge_is_literal_text id (lit "[Build your own C++ Parser](http://x)]") (lit "C++")
    (by decide)).1

theorem asciiFold_hi (a b : Nat) (h : asciiFold a = asciiFold b) (ha : 0x80 ≤ a) : b = a := by
  unfold asciiFold at h
  split_ifs at h <;> omega

theorem asciiFold_lo (a b : Nat) (h : asciiFold a = asciiFold b) (ha : a < 0x80) : b < 0x80 := by
  unfold asciiFold at h
  split_ifs at h <;> omega

theorem caseVariant_refl (s : Str) : CaseVariant s s := by
  induction s with
  | nil => exact List.Forall₂.nil
  | cons a s ih => exact List.Forall₂.cons rfl ih

theorem tokVariant_refl (t : Tok) : TokVariant t t := ⟨rfl, caseVariant_refl _⟩

theorem hiPre_variant (r r2 : Str) (h : CaseVariant r r2) : hiPre r = hiPre r2 := by
  induction h with
  | nil => rfl
  | @cons a b r r2 hab _ ih =>
    by_cases ha : 0x80 ≤ a
    · have := asciiFold_hi a b hab ha
      subst this
      rw [hiPre_cons_hi _ _ ha, hiPre_cons_hi _ _ ha, ih]
    · have := asciiFold_lo a b hab (by omega)
      rw [hiPre_cons_lo _ _ (by omega), hiPre_cons_lo _ _ this]

theorem take_drop_variant (r r2 : Str) (h : CaseVariant r r2) (k : Nat)
    (hk : k ≤ (hiPre r).length) :
    r.take k = r2.take k ∧ CaseVariant (r.drop k) (r2.drop k) := by
  induction h generalizing k with
  | nil => simp [CaseVariant]
  | @cons a b r r2 hab hr ih =>
    cases k with
    | zero => exact ⟨rfl, List.Forall₂.cons hab hr⟩
    | succ k =>
      by_cases ha : 0x80 ≤ a
      · have := asciiFold_hi a b hab ha
        subst this
        rw [hiPre_cons_hi _ _ ha] at hk
        have := ih k (by simpa using hk)
        simp only [List.take_succ_cons, List.drop_succ_cons]
        exact ⟨by rw [this.1], this.2⟩
      · rw [hiPre_cons_lo _ _ (by omega)] at hk
        simp at hk

/-- Decoding respects the case of ASCII letters: strings that differ in it only have
runes that differ in it only. -/
theorem runes_variant (s s2 : Str) (h : CaseVariant s s2) :
    List.Forall₂ TokVariant (runes s) (runes s2) := by
  generalize hn : s.length = n
  induction n using Nat.strong_induction_on generalizing s s2 with
  | _ n ih =>
    cases h with
    | nil => simp [runes_nil]
    | @cons a b r r2 hab hr =>
      by_cases ha : a < 0x80
      · have hb := asciiFold_lo a b hab ha
        rw [runes_cons_ascii _ _ ha, runes_cons_ascii _ _ hb]
        refine List.Forall₂.cons ⟨hab, List.Forall₂.cons hab List.Forall₂.nil⟩ ?_
        exact ih _ (by subst hn; simp) r r2 hr rfl
      · have ha2 : 0x80 ≤ a := by omega
        have := asciiFold_hi a b hab ha2
        subst this
        have h1 := decode_hiPre b r
        have h2 := decode_hiPre b r2
        have h3 := decode_size_pos b r
        have hd : DecodeRuneInString (b :: r2) = DecodeRuneInString (b :: r) := by
          rw [h2.1, h1.1, hiPre_variant r r2 hr]
        rw [runes_cons, runes_cons b r2, hd]
        obtain ⟨k, hk⟩ : ∃ k, (DecodeRuneInString (b :: r)).2 = k + 1 :=
          ⟨(DecodeRuneInString (b :: r)).2 - 1, by omega⟩
        have htd := take_drop_variant r r2 hr k (by omega)
        rw [hk]
        simp only [List.take_succ_cons, List.drop_succ_cons]
        rw [← htd.1]
        refine List.Forall₂.cons (tokVariant_refl _) ?_
        exact ih _ (by subst hn; simp; omega) _ _ htd.2 rfl

theorem asciiFold_cases (a b : Nat) (h : asciiFold a = asciiFold b) :
    a = b ∨ (((0x41 ≤ a ∧ a ≤ 0x5A) ∨ (0x61 ≤ a ∧ a ≤ 0x7A)) ∧
      ((0x41 ≤ b ∧ b ≤ 0x5A) ∨ (0x61 ≤ b ∧ b ≤ 0x7A))) := by
  unfold asciiFold at h
  split_ifs at h <;> omega

theorem caseInv_of_letters (p : Nat → Bool) (c : Bool)
    (h : ∀ a, (0x41 ≤ a ∧ a ≤ 0x5A) ∨ (0x61 ≤ a ∧ a ≤ 0x7A) → p a = c) : CaseInv p := by
  intro a b hab
  rcases asciiFold_cases a b hab with rfl | ⟨ha, hb⟩
  · rfl
  · rw [h a ha, h b hb]

theorem caseInv_reSpace : CaseInv reSpace :=
  caseInv_of_letters _ false (by
    intro a ha
    simp only [reSpace, Bool.or_eq_false_iff, beq_eq_false_iff_ne]
    omega)

theorem caseInv_isSpace : CaseInv isSpace :=
  caseInv_of_letters _ false (by
    intro a ha
    simp only [isSpace, Bool.or_eq_false_iff, Bool.and_eq_false_iff, decide_eq_false_iff_not,
      beq_eq_false_iff_ne]
    omega)

theorem caseInv_targetRune : CaseInv targetRune :=
  caseInv_of_letters _ true (by
    intro a ha
    simp only [targetRune, Bool.not_eq_true', Bool.or_eq_false_iff, beq_eq_false_iff_ne]
    omega)

theorem caseInv_ne (c : Nat) (hc : c < 0x41) : CaseInv (fun r => r != c) :=
  caseInv_of_letters _ true (by
    intro a ha
    simp only [bne_iff_ne, ne_eq]
    omega)

theorem foldClass_variant (tbl : Nat → Nat) (a b : Nat) (h : asciiFold a = asciiFold b) :
    foldClass tbl a = foldClass tbl b := by
  rcases asciiFold_cases a b h with rfl | ⟨ha, hb⟩
  · rfl
  · unfold asciiFold at h
    unfold foldClass
    split_ifs at h ⊢ <;> first | omega | (simp only [Sum.inl.injEq]; omega)

theorem foldEq_variant_left (tbl : Nat → Nat) (a b : Nat) (h : asciiFold a = asciiFold b) :
    foldEq tbl a = foldEq tbl b := by
  funext x
  simp only [foldEq, foldClass_variant tbl a b h]

theorem caseInv_foldEq (tbl : Nat → Nat) (r : Nat) : CaseInv (foldEq tbl r) := by
  intro a b h
  simp only [foldEq, foldClass_variant tbl a b h]

theorem push_variant (cap : Bool) (t t2 : Tok) (r r2 : MatchRes) (ht : TokVariant t t2)
    (hr : ResVariant r r2) : ResVariant (r.push cap t) (r2.push cap t2) := by
  cases cap
  · exact ⟨List.Forall₂.cons ht hr.1, hr.2⟩
  · exact ⟨List.Forall₂.cons ht hr.1, List.Forall₂.cons ht hr.2⟩

theorem optVariant_push (cap : Bool) (t t2 : Tok) (o o2 : Option MatchRes)
    (ht : TokVariant t t2) (ho : OptVariant o o2) :
    OptVariant (o.map (MatchRes.push cap t)) (o2.map (MatchRes.push cap t2)) := by
  cases o <;> cases o2 <;> simp only [Option.map, OptVariant] at ho ⊢
  exact push_variant cap t t2 _ _ ht ho

theorem oneStep_variant (p : Nat → Bool) (cap : Bool) (k : List Tok → Option MatchRes)
    (hp : CaseInv p)
    (hk : ∀ ts ts2, List.Forall₂ TokVariant ts ts2 → OptVariant (k ts) (k ts2))
    (ts ts2 : List Tok) (h : List.Forall₂ TokVariant ts ts2) :
    OptVariant (oneStep p cap k ts) (oneStep p cap k ts2) := by
  cases h with
  | nil => simp [oneStep, OptVariant]
  | @cons t t2 ts ts2 ht hts =>
    simp only [oneStep, hp _ _ ht.1]
    split_ifs
    · exact optVariant_push cap t t2 _ _ ht (hk _ _ hts)
    · simp [OptVariant]

theorem starG_variant (p : Nat → Bool) (cap : Bool) (k : List Tok → Option MatchRes)
    (hp : CaseInv p)
    (hk : ∀ ts ts2, List.Forall₂ TokVariant ts ts2 → OptVariant (k ts) (k ts2))
    (ts ts2 : List Tok) (h : List.Forall₂ TokVariant ts ts2) :
    OptVariant (starG p cap k ts) (starG p cap k ts2) := by
  induction h with
  | nil => simpa [starG] using hk [] [] List.Forall₂.nil
  | @cons t t2 ts ts2 ht hts ih =>
    have hkc := hk _ _ (List.Forall₂.cons ht hts)
    simp only [starG, hp _ _ ht.1]
    split_ifs
    · cases h1 : starG p cap k ts <;> cases h2 : starG p cap k ts2 <;>
        simp only [h1, h2, OptVariant] at ih ⊢
      · exact hkc
      · exact push_variant cap t t2 _ _ ht ih
    · exact hkc

theorem starL_variant (p : Nat → Bool) (cap : Bool) (k : List Tok → Option MatchRes)
    (hp : CaseInv p)
    (hk : ∀ ts ts2, List.Forall₂ TokVariant ts ts2 → OptVariant (k ts) (k ts2))
    (ts ts2 : List Tok) (h : List.Forall₂ TokVariant ts ts2) :
    OptVariant (starL p cap k ts) (starL p cap k ts2) := by
  induction h with
  | nil => simpa [starL] using hk [] [] List.Forall₂.nil
  | @cons t t2 ts ts2 ht hts ih =>
    have hkc := hk _ _ (List.Forall₂.cons ht hts)
    simp only [starL, hp _ _ ht.1]
    cases h1 : k (t :: ts) <;> cases h2 : k (t2 :: ts2) <;>
      simp only [h1, h2, OptVariant] at hkc ⊢
    · split_ifs
      · exact optVariant_push cap t t2 _ _ ht ih
      · simp [OptVariant]
    · exact hkc

theorem matchNodes_variant (ns : List Node) (hns : ∀ n ∈ ns, CaseInv n.pred)
    (ts ts2 : List Tok) (h : List.Forall₂ TokVariant ts ts2) :
    OptVariant (matchNodes ns ts) (matchNodes ns ts2) := by
  induction ns generalizing ts ts2 with
  | nil => simp [matchNodes_nil, OptVariant, ResVariant]
  | cons n ns ih =>
    have hp := hns n (by simp)
    have ih2 := ih (fun m hm => hns m (by simp [hm]))
    obtain ⟨p, q, cap⟩ := n
    cases q with
    | one => rw [matchNodes_one]; exact oneStep_variant p cap _ hp ih2 ts ts2 h
    | star => rw [matchNodes_star]; exact starG_variant p cap _ hp ih2 ts ts2 h
    | lazyStar => rw [matchNodes_lazyStar]; exact starL_variant p cap _ hp ih2 ts ts2 h
    | plus =>
      rw [matchNodes_plus]
      exact oneStep_variant p cap _ hp (starG_variant p cap _ hp ih2) ts ts2 h

theorem findAll_variant (re : List Node) (hre : ∀ n ∈ re, CaseInv n.pred)
    (ts ts2 : List Tok) (h : List.Forall₂ TokVariant ts ts2) (k : Nat) (b : Bool) :
    List.Forall₂ ResVariant (findAllAux re ts k b) (findAllAux re ts2 k b) := by
  induction h generalizing k b with
  | nil =>
    exact List.forall₂_same.mpr (fun r _ =>
      ⟨List.forall₂_same.mpr (fun t _ => tokVariant_refl t),
       List.forall₂_same.mpr (fun t _ => tokVariant_refl t)⟩)
  | @cons t t2 ts ts2 ht hts ih =>
    cases k with
    | succ k => simp only [findAllAux]; exact ih k true
    | zero =>
      have hm := matchNodes_variant re hre _ _ (List.Forall₂.cons ht hts)
      simp only [findAllAux]
      cases h1 : matchNodes re (t :: ts) <;> cases h2 : matchNodes re (t2 :: ts2) <;>
        simp only [h1, h2, OptVariant] at hm ⊢
      · exact ih 0 false
      · rename_i r r2
        have hlen : r.whole.length = r2.whole.length := hm.1.length_eq
        rw [hlen]
        split_ifs
        · exact ih 0 false
        · exact List.Forall₂.cons hm (ih 0 false)
        · exact List.Forall₂.cons hm (ih _ true)

theorem patternNodes_caseInv (tbl : Nat → Nat) (chal : List Nat) :
    ∀ n ∈ patternNodes tbl chal, CaseInv n.pred := by
  intro n hn
  rw [patternNodes_eq] at hn
  rcases List.mem_cons.mp hn with rfl | hn
  · exact caseInv_foldEq tbl _
  rcases List.mem_cons.mp hn with rfl | hn
  · exact caseInv_reSpace
  rcases List.mem_append.mp hn with hn | hn
  · obtain ⟨r, _, rfl⟩ := List.mem_map.mp hn
    exact caseInv_foldEq tbl _
  simp only [restNodes, anchorEndNodes, targetNodes, closeNodes, List.cons_append,
    List.nil_append, List.mem_cons, List.not_mem_nil, or_false] at hn
  rcases hn with rfl | rfl | rfl | rfl | rfl | rfl | rfl | rfl | rfl
  · exact caseInv_ne 10 (by decide)
  · exact caseInv_reSpace
  · exact caseInv_foldEq tbl _
  · exact caseInv_foldEq tbl _
  · exact caseInv_reSpace
  · exact caseInv_targetRune
  · exact caseInv_reSpace
  · exact caseInv_ne 0x29 (by decide)
  · exact caseInv_foldEq tbl _

theorem bytesOf_variant (ts ts2 : List Tok) (h : List.Forall₂ TokVariant ts ts2) :
    CaseVariant (bytesOf ts) (bytesOf ts2) := by
  induction h with
  | nil => exact List.Forall₂.nil
  | @cons t t2 ts ts2 ht _ ih =>
    simp only [bytesOf, List.flatMap_cons]
    exact List.rel_append ht.2 ih

theorem dropWhile_variant (p : Tok → Bool) (hp : ∀ t t2, TokVariant t t2 → p t = p t2)
    (ts ts2 : List Tok) (h : List.Forall₂ TokVariant ts ts2) :
    List.Forall₂ TokVariant (ts.dropWhile p) (ts2.dropWhile p) := by
  induction h with
  | nil => exact List.Forall₂.nil
  | @cons t t2 ts ts2 ht hts ih =>
    simp only [List.dropWhile, hp t t2 ht]
    cases p t2
    · exact List.Forall₂.cons ht hts
    · exact ih

theorem trimSpace_variant (s s2 : Str) (h : CaseVariant s s2) :
    CaseVariant (TrimSpace s) (TrimSpace s2) := by
  unfold TrimSpace
  have hp : ∀ t t2, TokVariant t t2 →
      (fun t : Tok => isSpace t.rune) t = (fun t : Tok => isSpace t.rune) t2 :=
    fun t t2 ht => caseInv_isSpace _ _ ht.1
  apply bytesOf_variant
  apply List.rel_reverse
  apply dropWhile_variant _ hp
  apply List.rel_reverse
  exact dropWhile_variant _ hp _ _ (runes_variant s s2 h)

theorem tokVariant_bad (t t2 : Tok) (h : TokVariant t t2) : t.bad = t2.bad := by
  have hl : t.bytes.length = t2.bytes.length := h.2.length_eq
  have hr : (t.rune == RuneError) = (t2.rune == RuneError) := by
    rcases asciiFold_cases _ _ h.1 with he | ⟨ha, hb⟩
    · rw [he]
    · have h1 : (t.rune == RuneError) = false := by
        simp only [RuneError, beq_eq_false_iff_ne, ne_eq]; omega
      have h2 : (t2.rune == RuneError) = false := by
        simp only [RuneError, beq_eq_false_iff_ne, ne_eq]; omega
      rw [h1, h2]
  simp only [Tok.bad, hl, hr]

theorem all_not_bad_variant (ts ts2 : List Tok) (h : List.Forall₂ TokVariant ts ts2) :
    ts.all (fun t => !t.bad) = ts2.all (fun t => !t.bad) := by
  induction h with
  | nil => rfl
  | @cons t t2 ts ts2 ht _ ih => simp only [List.all_cons, tokVariant_bad t t2 ht, ih]

theorem validString_variant (s s2 : Str) (h : CaseVariant s s2) :
    ValidString s = ValidString s2 :=
  all_not_bad_variant _ _ (runes_variant s s2 h)

theorem accepted_variant (s s2 : Str) (h : CaseVariant s s2) : Accepted s = Accepted s2 := by
  unfold Accepted
  rw [validString_variant s s2 h, (runes_variant s s2 h).length_eq]

theorem patternNodes_variant (tbl : Nat → Nat) (rs rs2 : List Nat)
    (h : List.Forall₂ (fun a b => asciiFold a = asciiFold b) rs rs2) :
    patternNodes tbl rs = patternNodes tbl rs2 := by
  have : rs.map (litNode tbl) = rs2.map (litNode tbl) := by
    induction h with
    | nil => rfl
    | @cons a b rs rs2 hab _ ih =>
      simp only [List.map_cons, ih, litNode, foldEq_variant_left tbl a b hab]
  simp only [patternNodes, this]

theorem extract_challenge_variant (tbl : Nat → Nat) (content c c2 : Str)
    (h : CaseVariant c c2) :
    extractMarkdownLinkHrefByText tbl content c2 = extractMarkdownLinkHrefByText tbl content c := by
  have hv := accepted_variant c c2 h
  have hr : List.Forall₂ (fun a b => asciiFold a = asciiFold b)
      ((runes c).map Tok.rune) ((runes c2).map Tok.rune) := by
    rw [List.forall₂_map_left_iff, List.forall₂_map_right_iff]
    exact (runes_variant c c2 h).imp (fun _ _ ht => ht.1)
  unfold extractMarkdownLinkHrefByText
  rw [mustCompile_quoteMeta, mustCompile_quoteMeta, ← hv, patternNodes_variant tbl _ _ hr]

theorem caseVariant_lower (s : Str) : CaseVariant s (asciiLower s) := by
  unfold asciiLower CaseVariant
  rw [List.forall₂_map_right_iff]
  exact List.forall₂_same.mpr (fun a _ => by unfold asciiFold; split_ifs <;> omega)

theorem caseVariant_upper (s : Str) : CaseVariant s (asciiUpper s) := by
  unfold asciiUpper CaseVariant
  rw [List.forall₂_map_right_iff]
  exact List.forall₂_same.mpr (fun a _ => by unfold asciiFold; split_ifs <;> omega)

theorem extract_content_variant (tbl : Nat → Nat) (content content2 c : Str)
    (h : CaseVariant content content2) :
    RunVariant (extractMarkdownLinkHrefByText tbl content c)
      (extractMarkdownLinkHrefByText tbl content2 c) := by
  cases hv : Accepted c with
  | false =>
    rw [extract_invalid tbl _ _ hv, extract_invalid tbl _ _ hv]
    trivial
  | true =>
    have hf := findAll_variant (patternNodes tbl ((runes c).map Tok.rune))
      (patternNodes_caseInv tbl _) _ _ (runes_variant content content2 h) 0 false
    rw [extract_eq tbl _ _ hv, extract_eq tbl _ _ hv, hf.length_eq]
    split_ifs
    · exact rfl
    · refine ⟨?_, rfl⟩
      rw [List.forall₂_map_left_iff, List.forall₂_map_right_iff]
      exact hf.imp (fun r r2 hr => trimSpace_variant _ _ (bytesOf_variant _ _ hr.2))

/-- Claim C4. Matching does not depend on the case of ASCII letters.  A challenge
that differs from another in the case of ASCII letters only gives the same result
on every document, in particular the challenge in small letters and the challenge
in capital letters; a document that differs from another in the case of ASCII
letters only has the same matches at the same places, so the results have the same
length and differ in the case of ASCII letters at most; and the challenge "grep"
matches the anchor text "Build Your Own grep". -/
theorem extract_case_insensitive (tbl : Nat → Nat) (content content2 c c2 : Str) :
    (CaseVariant c c2 →
      extractMarkdownLinkHrefByText tbl content c2 = extractMarkdownLinkHrefByText tbl content c) ∧
    extractMarkdownLinkHrefByText tbl content (asciiLower c) =
      extractMarkdownLinkHrefByText tbl content c ∧
    extractMarkdownLinkHrefByText tbl content (asciiUpper c) =
      extractMarkdownLinkHrefByText tbl content c ∧
    (CaseVariant content content2 →
      RunVariant (extractMarkdownLinkHrefByText tbl content c)
        (extractMarkdownLinkHrefByText tbl content2 c)) ∧
    extractMarkdownLinkHrefByText id (lit "[Build Your Own grep](u)") (lit "grep") =
      .ret (some [lit "u"], none) :=
  ⟨extract_challenge_variant tbl content c c2,
   extract_challenge_variant tbl content c _ (caseVariant_lower c),
   extract_challenge_variant tbl content c _ (caseVariant_upper c),
   extract_content_variant tbl content content2 c,
   by decide⟩

/-- Claim C4 on the challenge "grep" written as "GrEP", and on the anchor text
"Build Your Own grep" written in small letters. -/
theorem extract_case_insensitive_witness :
    extractMarkdownLinkHrefByText id (lit "[Build Your Own grep](u)") (lit "GrEP") =
      extractMarkdownLinkHrefByText id (lit "[Build Your Own grep](u)") (lit "grep") ∧
    RunVariant (extractMarkdownLinkHrefByText id (lit "[Build Your Own grep](u)") (lit "grep"))
      (extractMarkdownLinkHrefByText id (lit "[build your own grep](u)") (lit "grep")) :=
  ⟨(extract_case_insensitive id (lit "[Build Your Own grep](u)")
      (lit "[build your own grep](u)") (lit "grep") (lit "GrEP")).1
      (by unfold CaseVariant
          repeat (first | exact List.Forall₂.nil | refine List.Forall₂.cons rfl ?_)),
   (extract_case_insensitive id (lit "[Build Your Own grep](u)")
      (lit "[build your own grep](u)") (lit "grep") (lit "GrEP")).2.2.2.1
      (by unfold CaseVariant
          repeat (first | exact List.Forall₂.nil | refine List.Forall₂.cons rfl ?_))⟩

theorem hiPre_append_lo (r : Str) (x : Nat) (b : Str) (hx : x < 0x80) :
    hiPre (r ++ x :: b) = hiPre r := by
  induction r with
  | nil => simp [hiPre_cons_lo _ _ hx]; rfl
  | cons c r ih =>
    by_cases h : 0x80 ≤ c
    · simp only [List.cons_append]; rw [hiPre_cons_hi _ _ h, hiPre_cons_hi _ _ h, ih]
    · simp only [List.cons_append]; rw [hiPre_cons_lo _ _ (by omega), hiPre_cons_lo _ _ (by omega)]

/-- Decoding does not look past an ASCII byte: the runes of a string that is
followed by an ASCII byte are those of the string alone. -/
theorem runes_append_lo (a : Str) (x : Nat) (b : Str) (hx : x < 0x80) :
    runes (a ++ x :: b) = runes a ++ runes (x :: b) := by
  generalize h : a.length = n
  induction n using Nat.strong_induction_on generalizing a with
  | _ n ih =>
    cases a with
    | nil => simp [runes_nil]
    | cons b0 r =>
      have h1 := decode_hiPre b0 (r ++ x :: b)
      have h2 := decode_hiPre b0 r
      have h3 := decode_size_pos b0 r
      rw [hiPre_append_lo _ _ _ hx] at h1
      have hd : DecodeRuneInString (b0 :: (r ++ x :: b)) = DecodeRuneInString (b0 :: r) := by
        rw [h1.1, h2.1]
      simp only [List.cons_append]
      rw [runes_cons, runes_cons b0 r, hd]
      have hle : (DecodeRuneInString (b0 :: r)).2 ≤ (b0 :: r).length := h3.2
      rw [← List.cons_append, List.take_append_of_le_length hle,
        List.drop_append_of_le_length hle]
      rw [ih _ _ _ rfl]
      · simp
      · subst h; simp only [List.length_drop, List.length_cons]; omega

theorem decode4_append (b0 b1 b2 : Nat) (r b : Str) (h : decode4 b0 b1 b2 r ≠ (RuneError, 1)) :
    decode4 b0 b1 b2 (r ++ b) = decode4 b0 b1 b2 r := by
  cases r with
  | nil => simp [decode4] at h
  | cons b3 r => simp [decode4]

theorem decode3_append (b0 b1 : Nat) (r b : Str) (h : decode3 b0 b1 r ≠ (RuneError, 1)) :
    decode3 b0 b1 (r ++ b) = decode3 b0 b1 r := by
  cases r with
  | nil => simp [decode3] at h
  | cons b2 r =>
    simp only [decode3, List.cons_append] at h ⊢
    split_ifs at h ⊢ with h1 h2
    · rfl
    · rfl
    · exact decode4_append _ _ _ _ _ h

theorem decode2_append (b0 : Nat) (r b : Str) (h : decode2 b0 r ≠ (RuneError, 1)) :
    decode2 b0 (r ++ b) = decode2 b0 r := by
  cases r with
  | nil => simp [decode2] at h
  | cons b1 r =>
    simp only [decode2, List.cons_append] at h ⊢
    split_ifs at h ⊢ with h1 h2
    · rfl
    · rfl
    · exact decode3_append _ _ _ _ h

theorem decode_append (b0 : Nat) (r b : Str)
    (h : DecodeRuneInString (b0 :: r) ≠ (RuneError, 1)) :
    DecodeRuneInString (b0 :: (r ++ b)) = DecodeRuneInString (b0 :: r) := by
  simp only [DecodeRuneInString] at h ⊢
  split_ifs at h ⊢ with h1 h2
  · rfl
  · rfl
  · exact decode2_append _ _ _ h

theorem validString_cons (b0 : Nat) (r : Str) :
    ValidString (b0 :: r) = true ↔
      DecodeRuneInString (b0 :: r) ≠ (RuneError, 1) ∧
      ValidString ((b0 :: r).drop (DecodeRuneInString (b0 :: r)).2) = true := by
  have h3 := decode_size_pos b0 r
  unfold ValidString
  rw [runes_cons]
  simp only [List.all_cons, Bool.and_eq_true, Tok.bad, Bool.not_eq_true', Bool.and_eq_false_iff]
  constructor
  · rintro ⟨h1, h2⟩
    refine ⟨?_, h2⟩
    intro he
    rw [he] at h1
    simp at h1
  · rintro ⟨h1, h2⟩
    refine ⟨?_, h2⟩
    by_cases hr : (DecodeRuneInString (b0 :: r)).1 = RuneError
    · right
      have : (DecodeRuneInString (b0 :: r)).2 ≠ 1 := by
        intro h2'
        apply h1
        exact Prod.ext hr h2'
      simp only [List.length_take, beq_eq_false_iff_ne, ne_eq]
      omega
    · left; simpa using hr

/-- A valid string is decoded on its own: the runes of a valid string followed by
any bytes are those of the string, then those of what follows. -/
theorem runes_append_valid (a b : Str) (ha : ValidString a = true) :
    runes (a ++ b) = runes a ++ runes b := by
  generalize h : a.length = n
  induction n using Nat.strong_induction_on generalizing a with
  | _ n ih =>
    cases a with
    | nil => simp [runes_nil]
    | cons b0 r =>
      rw [validString_cons] at ha
      have h3 := decode_size_pos b0 r
      have hd := decode_append b0 r b ha.1
      simp only [List.cons_append]
      rw [runes_cons, runes_cons b0 r, hd]
      have hle : (DecodeRuneInString (b0 :: r)).2 ≤ (b0 :: r).length := h3.2
      rw [← List.cons_append, List.take_append_of_le_length hle,
        List.drop_append_of_le_length hle]
      rw [ih _ _ _ ha.2 rfl]
      · simp
      · subst h; simp only [List.length_drop, List.length_cons]; omega

theorem runes_ascii (a : Str) (h : ∀ b ∈ a, b < 0x80) : runes a = a.map asciiTok := by
  have := runes_ascii_append a [] h
  simpa [runes_nil] using this

theorem trimSpace_id (s : Str) (h : ∀ t ∈ runes s, isSpace t.rune = false) :
    TrimSpace s = s := by
  unfold TrimSpace
  have h1 : ∀ t ∈ runes s, (fun t : Tok => isSpace t.rune) t = false := h
  rw [dropWhile_none _ _ h1]
  have h2 : ∀ t ∈ (runes s).reverse, (fun t : Tok => isSpace t.rune) t = false :=
    fun t ht => h1 t (List.mem_reverse.mp ht)
  rw [dropWhile_none _ _ h2, List.reverse_reverse, bytesOf_runes]

theorem foldMatch_self (tbl : Nat → Nat) (ts : List Tok) :
    FoldMatch tbl (ts.map Tok.rune) ts := by
  induction ts with
  | nil => exact List.Forall₂.nil
  | cons a ts ih => exact List.Forall₂.cons (foldEq_refl tbl _) ih

theorem foldMatch_phrase (tbl : Nat → Nat) :
    FoldMatch tbl phrase ((lit "Build your own ").map asciiTok) := by
  unfold FoldMatch
  repeat (first | exact List.Forall₂.nil | refine List.Forall₂.cons rfl ?_)

theorem plainRune_spec (r : Nat) (h : plainRune r = true) :
    r ≠ 0x5B ∧ r ≠ 0x5D ∧ r ≠ 0x28 ∧ r ≠ 0x29 ∧ r ≠ 10 := by
  simp only [plainRune, Bool.not_eq_true', Bool.or_eq_false_iff, beq_eq_false_iff_ne, ne_eq] at h
  obtain ⟨⟨⟨⟨h1, h2⟩, h3⟩, h4⟩, h5⟩ := h
  exact ⟨h1, h2, h3, h4, h5⟩

theorem urlRune_spec (r : Nat) (h : urlRune r = true) :
    isSpace r = false ∧ targetRune r = true ∧ reSpace r = false := by
  simp only [urlRune, Bool.not_eq_true', Bool.or_eq_false_iff, beq_eq_false_iff_ne, ne_eq] at h
  obtain ⟨⟨h1, h2⟩, h3⟩ := h
  refine ⟨h1, ?_, ?_⟩
  · simp only [isSpace, Bool.or_eq_false_iff, Bool.and_eq_false_iff, decide_eq_false_iff_not,
      beq_eq_false_iff_ne] at h1
    simp only [targetRune, Bool.not_eq_true', Bool.or_eq_false_iff, beq_eq_false_iff_ne]
    omega
  · simp only [isSpace, Bool.or_eq_false_iff, Bool.and_eq_false_iff, decide_eq_false_iff_not,
      beq_eq_false_iff_ne] at h1
    simp only [reSpace, Bool.or_eq_false_iff, beq_eq_false_iff_ne]
    omega

theorem runes_ne_nil (s : Str) (h : s ≠ []) : ∃ t ts, runes s = t :: ts := by
  cases s with
  | nil => exact absurd rfl h
  | cons b r => exact ⟨_, _, runes_cons b r⟩

theorem line_toks (c t u r rest : Str) (hv : ValidString c = true) :
    runes (line c t u r ++ rest) =
      [asciiTok 0x2D, asciiTok 0x20] ++
        ((asciiTok 0x5B :: (((lit "Build your own ").map asciiTok ++ runes c) ++
          (runes t ++ asciiTok 0x5D :: asciiTok 0x28 :: (runes u ++ [asciiTok 0x29])))) ++
          ((runes r ++ [asciiTok 0x0A]) ++ runes rest)) := by
  have e1 : lit "](" = [0x5D, 0x28] := by decide
  have e2 : lit ")" = [0x29] := by decide
  have e3 : lit "\n" = [0x0A] := by decide
  have e4 : (lit "- [Build your own ").map asciiTok =
      asciiTok 0x2D :: asciiTok 0x20 :: asciiTok 0x5B :: (lit "Build your own ").map asciiTok := by
    decide
  have hs : line c t u r ++ rest = lit "- [Build your own " ++
      (c ++ (t ++ (0x5D :: 0x28 :: (u ++ (0x29 :: (r ++ (0x0A :: rest))))))) := by
    simp only [line, e1, e2, e3, List.append_assoc, List.cons_append, List.nil_append]
  rw [hs, runes_ascii_append _ _ (by decide), runes_append_valid _ _ hv,
    runes_append_lo _ _ _ (by decide), runes_cons_ascii _ _ (by decide),
    runes_cons_ascii _ _ (by decide), runes_append_lo _ _ _ (by decide),
    runes_cons_ascii _ _ (by decide), runes_append_lo _ _ _ (by decide),
    runes_cons_ascii _ _ (by decide), e4]
  simp only [List.append_assoc, List.cons_append, List.nil_append]

theorem findAll_document (tbl : Nat → Nat) (c : Str) (lines : List (Str × Str × Str))
    (hv : ValidString c = true)
    (hl : ∀ l ∈ lines, (∀ t ∈ runes l.1, plainRune t.rune = true) ∧ l.2.1 ≠ [] ∧
      (∀ t ∈ runes l.2.1, urlRune t.rune = true) ∧ (∀ t ∈ runes l.2.2, plainRune t.rune = true)) :
    (findAllAux (patternNodes tbl ((runes c).map Tok.rune)) (runes (document c lines))
        0 false).map MatchRes.grp =
      lines.map (fun l => runes l.2.1) := by
  induction lines with
  | nil => simp [document, runes_nil, findAllAux, pattern_no_match_nil]
  | cons l ls ih =>
    obtain ⟨ht, hne, hu, hr⟩ := hl l (by simp)
    have ih2 := ih (fun x hx => hl x (by simp [hx]))
    obtain ⟨t, u, r⟩ := l
    simp only at ht hu hr hne
    obtain ⟨u0, us, hu0⟩ := runes_ne_nil u hne
    have hd : document c ((t, u, r) :: ls) = line c t u r ++ document c ls := by
      simp [document]
    rw [hd, line_toks c t u r _ hv, findAll_plain _ _ _ _ _ (by decide), hu0]
    rw [hu0] at hu
    have hm := line_match tbl ((runes c).map Tok.rune)
      ((lit "Build your own ").map asciiTok ++ runes c) (runes t) u0 us
      ((runes r ++ [asciiTok 0x0A]) ++ runes (document c ls))
      (foldMatch_append _ _ _ _ _ (foldMatch_phrase tbl) (foldMatch_self tbl _))
      (fun x hx => ⟨(plainRune_spec _ (ht x hx)).2.2.2.2, (plainRune_spec _ (ht x hx)).2.1⟩)
      (fun x hx => (urlRune_spec _ (hu x hx)).2.1)
      (urlRune_spec _ (hu u0 (by simp))).2.2
    have hm2 := findAll_match tbl ((runes c).map Tok.rune) (asciiTok 0x5B)
      (((lit "Build your own ").map asciiTok ++ runes c) ++
        (runes t ++ asciiTok 0x5D :: asciiTok 0x28 :: (u0 :: us ++ [asciiTok 0x29])))
      ((runes r ++ [asciiTok 0x0A]) ++ runes (document c ls))
      (u0 :: us) false
      (by simpa only [List.append_assoc, List.cons_append, List.nil_append] using hm)
    rw [hm2]
    simp only [List.map_cons]
    have hp := findAll_plain tbl ((runes c).map Tok.rune) (runes r ++ [asciiTok 0x0A])
      (runes (document c ls)) false
      (by intro x hx
          rcases List.mem_append.mp hx with h | h
          · exact (plainRune_spec _ (hr x h)).1
          · have : x = asciiTok 0x0A := by simpa using h
            subst this; decide)
    rw [hp, ih2, hu0]

theorem findAll_nil_of_tails (re : List Node) (ts : List Tok) (k : Nat) (b : Bool)
    (h : ∀ post ∈ ts.tails, matchNodes re post = none) : findAllAux re ts k b = [] := by
  induction ts generalizing k b with
  | nil =>
    have := h [] (by simp)
    simp [findAllAux, this]
  | cons t ts ih =>
    have ih2 := fun k b => ih k b (fun post hp => h post (by simp [hp]))
    cases k with
    | succ k => simp only [findAllAux]; exact ih2 k true
    | zero =>
      have := h (t :: ts) (by simp)
      simp only [findAllAux, this]
      exact ih2 0 false

theorem extract_large (tbl : Nat → Nat) (content challenge : Str)
    (hn : fixedRunes + (runes challenge).length > maxRunes) :
    extractMarkdownLinkHrefByText tbl content challenge = .panic := by
  apply extract_invalid
  cases h : Accepted challenge with
  | false => rfl
  | true =>
    have := ((accepted_iff challenge).mp h).2
    omega

theorem runes_replicate (n b : Nat) (hb : b < 0x80) :
    runes (List.replicate n b) = List.replicate n (asciiTok b) := by
  rw [runes_ascii _ (fun x hx => by rw [List.eq_of_mem_replicate hx]; exact hb),
    List.map_replicate]

theorem extract_large_replicate (tbl : Nat → Nat) (content : Str) (n b : Nat) (hb : b < 0x80)
    (hn : fixedRunes + n > maxRunes) :
    extractMarkdownLinkHrefByText tbl content (List.replicate n b) = .panic := by
  apply extract_large
  rw [runes_replicate n b hb, List.length_replicate]
  exact hn

/-- Claim C1 fails as stated.  A challenge of the single byte `0xFF` is not empty and
holds no bracket, parenthesis or newline, yet on the document of one line built from it
the call panics: the pattern is not valid UTF-8.  The same happens for the challenge of
33554432 letters `a`: the pattern is too large for the parser. -/
theorem extract_panics_on_document :
    extractMarkdownLinkHrefByText id (document [0xFF] [([], lit "u", [])]) [0xFF] = .panic ∧
    extractMarkdownLinkHrefByText id
      (document (List.replicate 33554432 0x61) []) (List.replicate 33554432 0x61) = .panic :=
  ⟨by decide, extract_large_replicate id _ 33554432 0x61 (by decide) (by decide)⟩

/-- Claim C1, amended. For every challenge `c` that is valid UTF-8, counts 33554375
runes at most (so that the pattern is within the bound of the parser), is not empty
and holds no bracket, parenthesis or newline: on the document made of the lines
`- [Build your own <c><t_i>](<u_i>)<r_i>`, each ended by a newline, where the anchor
tails `t_i` and the trailers `r_i` hold no bracket, parenthesis or newline and the
targets `u_i` are non-empty and hold no white space and no parenthesis,
`extractMarkdownLinkHrefByText` returns exactly the targets `u_1, ..., u_N`, in the
order of the document and with repetitions kept, and a nil error. -/
theorem extract_returns_every_target_in_order (tbl : Nat → Nat) (c : Str)
    (lines : List (Str × Str × Str))
    (hv : ValidString c = true) (hn : (runes c).length ≤ 33554375)
    (hc : c ≠ [] ∧ ∀ t ∈ runes c, plainRune t.rune = true)
    (hl : ∀ l ∈ lines, (∀ t ∈ runes l.1, plainRune t.rune = true) ∧ l.2.1 ≠ [] ∧
      (∀ t ∈ runes l.2.1, urlRune t.rune = true) ∧ (∀ t ∈ runes l.2.2, plainRune t.rune = true)) :
    ∃ res, extractMarkdownLinkHrefByText tbl (document c lines) c = .ret (res, none) ∧
      res.getD [] = lines.map (fun l => l.2.1) := by
  have hacc : Accepted c = true :=
    (accepted_iff c).mpr ⟨hv, by
      have h1 : fixedRunes = 57 := by decide
      have h2 : maxRunes = 33554432 := by decide
      omega⟩
  have hd := findAll_document tbl c lines hv hl
  have hlen : (findAllAux (patternNodes tbl ((runes c).map Tok.rune))
      (runes (document c lines)) 0 false).length = lines.length := by
    have := congrArg List.length hd
    simpa using this
  have hmap : (findAllAux (patternNodes tbl ((runes c).map Tok.rune))
      (runes (document c lines)) 0 false).map (fun r => TrimSpace (bytesOf r.grp)) =
      lines.map (fun l => l.2.1) := by
    have := congrArg (List.map (fun g => TrimSpace (bytesOf g))) hd
    simp only [List.map_map] at this
    rw [show (fun r : MatchRes => TrimSpace (bytesOf r.grp)) =
      (fun g => TrimSpace (bytesOf g)) ∘ MatchRes.grp from rfl, this]
    apply List.map_congr_left
    intro l hmem
    simp only [Function.comp]
    rw [bytesOf_runes]
    exact trimSpace_id _ (fun t ht => (urlRune_spec _ ((hl l hmem).2.2.1 t ht)).1)
  rw [extract_eq tbl _ _ hacc, hlen, hmap]
  by_cases h0 : lines.length = 0
  · have : lines = [] := List.length_eq_zero.mp h0
    subst this
    exact ⟨none, by simp, by simp⟩
  · exact ⟨some (lines.map (fun l => l.2.1)), by simp [h0], by simp⟩

/-- The scenario of the specification for claim C1: the challenge "wc tool" on the
document of two matching lines,
"- [Build your own wc tool](https://a.com/x) by Foo" and
"- [Build your own wc tool](https://b.com/y)". -/
theorem extract_returns_every_target_in_order_witness :
    document (lit "wc tool")
        [([], lit "https://a.com/x", lit " by Foo"), ([], lit "https://b.com/y", [])] =
      lit "- [Build your own wc tool](https://a.com/x) by Foo\n- [Build your own wc tool](https://b.com/y)\n" ∧
    ∃ res, extractMarkdownLinkHrefByText id
        (document (lit "wc tool")
          [([], lit "https://a.com/x", lit " by Foo"), ([], lit "https://b.com/y", [])])
        (lit "wc tool") = .ret (res, none) ∧
      res.getD [] = [lit "https://a.com/x", lit "https://b.com/y"] :=
  ⟨by decide,
   extract_returns_every_target_in_order id (lit "wc tool")
    [([], lit "https://a.com/x", lit " by Foo"), ([], lit "https://b.com/y", [])]
    (by decide) (by decide) (by decide) (by decide)⟩

theorem findAll_nil_iff (tbl : Nat → Nat) (chal : List Nat) (ts : List Tok) (b : Bool) :
    findAllAux (patternNodes tbl chal) ts 0 b = [] ↔
      ∀ post ∈ ts.tails, matchNodes (patternNodes tbl chal) post = none := by
  constructor
  · intro h
    induction ts generalizing b with
    | nil =>
      intro post hp
      have : post = [] := by simpa using hp
      rw [this]; exact pattern_no_match_nil tbl chal
    | cons t ts ih =>
      simp only [findAllAux] at h
      cases hm : matchNodes (patternNodes tbl chal) (t :: ts) with
      | some r =>
        simp [hm, pattern_whole_ne tbl chal _ r hm] at h
      | none =>
        simp only [hm] at h
        intro post hp
        simp only [List.tails, List.mem_cons] at hp
        rcases hp with rfl | hp
        · exact hm
        · exact ih false h post hp
  · exact findAll_nil_of_tails _ ts 0 b

/-- Claim C5 fails as stated.  On a challenge that is not valid UTF-8, here the
single byte `0xFF`, the pattern is rejected and `regexp.MustCompile` panics; the same
happens on the challenge of 33554432 letters `a`, whose pattern is too large. -/
theorem extract_panics_on_rejected_pattern :
    extractMarkdownLinkHrefByText id (lit "[Build your own x](u)") [0xFF] = .panic ∧
    extractMarkdownLinkHrefByText id (lit "[Build your own x](u)")
      (List.replicate 33554432 0x61) = .panic :=
  ⟨by decide, extract_large_replicate id _ 33554432 0x61 (by decide) (by decide)⟩

theorem accepted_of_bound (c : Str) (hv : ValidString c = true)
    (hn : (runes c).length ≤ 33554375) : Accepted c = true :=
  (accepted_iff c).mpr ⟨hv, by
    have h1 : fixedRunes = 57 := by decide
    have h2 : maxRunes = 33554432 := by decide
    omega⟩

theorem extract_accepted_ret (tbl : Nat → Nat) (content challenge : Str)
    (ha : Accepted challenge = true) :
    ∃ res, extractMarkdownLinkHrefByText tbl content challenge = .ret (res, none) ∧
      (res = none ↔ ∀ post ∈ (runes content).tails,
        matchNodes (patternNodes tbl ((runes challenge).map Tok.rune)) post = none) := by
  rw [extract_eq tbl _ _ ha]
  by_cases h0 : (findAllAux (patternNodes tbl ((runes challenge).map Tok.rune))
      (runes content) 0 false).length = 0
  · refine ⟨none, by simp [h0], ?_⟩
    simp only [true_iff]
    exact (findAll_nil_iff tbl _ _ false).mp (List.length_eq_zero.mp h0)
  · refine ⟨some ((findAllAux (patternNodes tbl ((runes challenge).map Tok.rune))
      (runes content) 0 false).map (fun r => TrimSpace (bytesOf r.grp))),
      by simp only [h0, if_false], ?_⟩
    constructor
    · intro h; cases h
    · intro h
      exact absurd (List.length_eq_zero.mpr ((findAll_nil_iff tbl _ _ false).mpr h)) h0

/-- Claim C5, amended. For every document and every challenge that is valid UTF-8
and counts 33554375 runes at most, the pattern built from the escaped challenge is a
valid pattern (`regexp.MustCompile` does not panic) and the call returns with a nil
error; the returned slice is nil exactly when the pattern matches at no place of the
document. -/
theorem extract_never_fails_on_accepted_challenge (tbl : Nat → Nat) (content challenge : Str)
    (hv : ValidString challenge = true) (hn : (runes challenge).length ≤ 33554375) :
    MustCompile tbl (QuoteMeta challenge) =
      .ret (patternNodes tbl ((runes challenge).map Tok.rune)) ∧
    ∃ res, extractMarkdownLinkHrefByText tbl content challenge = .ret (res, none) ∧
      (res = none ↔ ∀ post ∈ (runes content).tails,
        matchNodes (patternNodes tbl ((runes challenge).map Tok.rune)) post = none) := by
  have ha := accepted_of_bound challenge hv hn
  exact ⟨by rw [mustCompile_quoteMeta, ha]; rfl, extract_accepted_ret tbl content challenge ha⟩

/-- Claim C5, amended, on the challenge "C++" and a document in which the pattern
matches nowhere: the call returns a nil slice and a nil error. -/
theorem extract_never_fails_on_accepted_challenge_witness :
    ∃ res, extractMarkdownLinkHrefByText id (lit "[Build your own C](b)") (lit "C++") =
        .ret (res, none) ∧ res = none :=
  (extract_never_fails_on_accepted_challenge id (lit "[Build your own C](b)") (lit "C++")
    (by decide) (by decide)).2.elim (fun res h => ⟨res, h.1, h.2.mpr (by decide)⟩)

theorem search_of_extract_panic (tbl : Nat → Nat) (net : Net) (c d : Str)
    (hc : TrimSpace c ≠ []) (hf : (fetchRaw net sharedSolutionsRepo).1 = (d, none))
    (hx : extractMarkdownLinkHrefByText tbl d c = .panic) :
    (search tbl net ⟨c⟩).1 = .panic := by
  unfold search
  simp only [hc, if_false]
  rcases hfr : fetchRaw net sharedSolutionsRepo with ⟨⟨d2, e2⟩, evs⟩
  rw [hfr] at hf
  cases hf
  simp only [hx]

theorem trimSpace_replicate (n b : Nat) (hb : b < 0x80) (hs : isSpace b = false) :
    TrimSpace (List.replicate n b) = List.replicate n b := by
  apply trimSpace_id
  intro t ht
  rw [runes_replicate n b hb] at ht
  rw [List.eq_of_mem_replicate ht]
  exact hs

theorem replicate_ne_nil (n b : Nat) (hn : 0 < n) : List.replicate n b ≠ [] := by
  intro h
  have := congrArg List.length h
  rw [List.length_replicate] at this
  simp only [List.length_nil] at this
  omega

/-- Claim C10 fails as stated.  The extractor gets the challenge as it was supplied,
not the trimmed one: with a leading space the search finds nothing in a document in
which the trimmed challenge has a match.  And the search does not succeed on every
challenge that is not blank: it panics on the single byte `0xFF`, which is not valid
UTF-8, and on 33554432 letters `a`, whose pattern is too large. -/
theorem search_does_not_trim_challenge :
    ((search id (constNet (.ok ⟨200, lit "200 OK", ⟨lit "[Build your own wc](u)", none⟩⟩))
        ⟨lit " wc"⟩).1 = .ret ⟨none, ⟨some []⟩, none⟩ ∧
      extractMarkdownLinkHrefByText id (lit "[Build your own wc](u)") (TrimSpace (lit " wc")) =
        .ret (some [lit "u"], none)) ∧
    (TrimSpace [0xFF] ≠ [] ∧
      (search id (constNet (.ok ⟨200, lit "200 OK", ⟨lit "[Build your own wc](u)", none⟩⟩))
        ⟨[0xFF]⟩).1 = .panic) ∧
    (TrimSpace (List.replicate 33554432 0x61) ≠ [] ∧
      (search id (constNet (.ok ⟨200, lit "200 OK", ⟨lit "[Build your own wc](u)", none⟩⟩))
        ⟨List.replicate 33554432 0x61⟩).1 = .panic) := by
  have hne : TrimSpace (List.replicate 33554432 0x61) ≠ [] := by
    rw [trimSpace_replicate _ _ (by decide) (by decide)]
    exact replicate_ne_nil _ _ (by decide)
  exact ⟨by decide, by decide, hne,
    search_of_extract_panic id _ _ (lit "[Build your own wc](u)") hne (by decide)
      (extract_large_replicate id _ 33554432 0x61 (by decide) (by decide))⟩

/-- Claim C10, amended. For every challenge that is not blank, is valid UTF-8 and
counts 33554375 runes at most, and every document a successful fetch returned,
`search` succeeds and its solutions are the sequence the extractor returns for the
document and the challenge as it was supplied, surrounding white space included. -/
theorem search_solutions_are_extractor_result (tbl : Nat → Nat) (net : Net) (c d : Str)
    (hv : ValidString c = true) (hn : (runes c).length ≤ 33554375)
    (hc : TrimSpace c ≠ []) (hf : (fetchRaw net sharedSolutionsRepo).1 = (d, none)) :
    ∃ url, extractMarkdownLinkHrefByText tbl d c = .ret (url, none) ∧
      (search tbl net ⟨c⟩).1 = .ret ⟨none, ⟨some (url.getD [])⟩, none⟩ := by
  obtain ⟨url, hx, _⟩ := extract_accepted_ret tbl d c (accepted_of_bound c hv hn)
  refine ⟨url, hx, ?_⟩
  unfold search
  simp only [hc, if_false]
  rcases hfr : fetchRaw net sharedSolutionsRepo with ⟨⟨d2, e2⟩, evs⟩
  rw [hfr] at hf
  cases hf
  simp only [hx]
  congr 3
  by_cases hlen : (url.getD []).length > 0
  · simp [hlen]
  · have : url.getD [] = [] := by
      cases hu : url.getD [] with
      | nil => rfl
      | cons a l => rw [hu] at hlen; simp at hlen
    simp [this]

/-- Claim C10, amended, on a challenge with a leading space and a document that holds
the challenge with that space. -/
theorem search_solutions_are_extractor_result_witness :
    ∃ url, extractMarkdownLinkHrefByText id (lit "[Build your own  wc](u)") (lit " wc") =
        .ret (url, none) ∧
      (search id (constNet (.ok ⟨200, lit "200 OK", ⟨lit "[Build your own  wc](u)", none⟩⟩))
        ⟨lit " wc"⟩).1 = .ret ⟨none, ⟨some (url.getD [])⟩, none⟩ :=
  search_solutions_are_extractor_result id
    (constNet (.ok ⟨200, lit "200 OK", ⟨lit "[Build your own  wc](u)", none⟩⟩)) (lit " wc")
    (lit "[Build your own  wc](u)") (by decide) (by decide) (by decide) (by decide)

/-- Claim C7. For a challenge that is not blank, when the fetch fails with the error
`e`, `search` returns that very error with an `Output` without solutions, and the
extractor is not called; and on every network and every challenge, whenever `search`
returns an error its `Output` holds no solutions. -/
theorem search_propagates_fetch_error (tbl : Nat → Nat) (net : Net) (c d : Str) (e : GoError) :
    (TrimSpace c ≠ [] → (fetchRaw net sharedSolutionsRepo).1 = (d, some e) →
      (search tbl net ⟨c⟩).1 = .ret ⟨none, ⟨none⟩, some e⟩ ∧
      ∀ a b, Event.extract a b ∉ (search tbl net ⟨c⟩).2) ∧
    (∀ r, (search tbl net ⟨c⟩).1 = .ret r → r.err ≠ none → r.out = ⟨none⟩) := by
  refine ⟨fun hc hf => ⟨?_, ?_⟩, ?_⟩
  · unfold search
    simp only [hc, if_false]
    rcases hfr : fetchRaw net sharedSolutionsRepo with ⟨⟨d2, e2⟩, evs⟩
    rw [hfr] at hf
    cases hf
    rfl
  · intro a b hmem
    have hev := fetchRaw_events net sharedSolutionsRepo
    unfold search at hmem
    simp only [hc, if_false] at hmem
    rcases hfr : fetchRaw net sharedSolutionsRepo with ⟨⟨d2, e2⟩, evs⟩
    rw [hfr] at hf hmem hev
    cases hf
    simp only [List.mem_append, List.mem_singleton] at hmem
    rcases hmem with h | h
    · have := hev _ h
      cases this
    · cases h
  · intro r hr hne
    unfold search at hr
    split at hr
    · cases hr; rfl
    · split at hr
      · cases hr; rfl
      · split at hr
        · cases hr
        · cases hr
        · cases hr; rfl
        · cases hr; exact absurd rfl hne

/-- Claim C7 on a network whose requests fail, and on a network that answers with a
document that holds a match. -/
theorem search_propagates_fetch_error_witness :
    ((search id (constNet (.error ⟨lit "dial tcp: i/o timeout"⟩)) ⟨lit "wc"⟩).1 =
        .ret ⟨none, ⟨none⟩, some ⟨lit "dial tcp: i/o timeout"⟩⟩ ∧
      ∀ a b, Event.extract a b ∉
        (search id (constNet (.error ⟨lit "dial tcp: i/o timeout"⟩)) ⟨lit "wc"⟩).2) ∧
    (∀ r, (search id (constNet (.ok ⟨200, lit "200 OK", ⟨lit "[Build your own wc](u)", none⟩⟩))
        ⟨lit "wc"⟩).1 = .ret r → r.err ≠ none → r.out = ⟨none⟩) :=
  ⟨(search_propagates_fetch_error id (constNet (.error ⟨lit "dial tcp: i/o timeout"⟩))
      (lit "wc") [] ⟨lit "dial tcp: i/o timeout"⟩).1 (by decide) (by decide),
   (search_propagates_fetch_error id
      (constNet (.ok ⟨200, lit "200 OK", ⟨lit "[Build your own wc](u)", none⟩⟩))
      (lit "wc") [] ⟨[]⟩).2⟩

end Goccmcp
